import Mathlib

/-!
# auto-kg — formal model of the bounded graph-traversal core

A shallow embedding of the core of the `auto-kg` repository:

* the Neo4j-backed persistent store as manipulated by
  `auto_kg/database/neo4j_manager.py` (`create_concept_node`,
  `create_relationship`, `load_processed_data`, `export_graph_data`,
  `export_subgraph`, `shortest_path`), and
* the offline fallback backend of `auto_kg/web/app.py`
  (`build_offline_graph` and the BFS fallbacks of `get_subgraph` /
  `get_path`), together with the edge sanitization done by the routes.

Titles are `String`s, timestamps are modelled by an explicit `Nat` clock
(each database call ticks the clock; `datetime()` reads it), and the
Cypher queries are modelled by their documented semantics over the
explicit node/edge lists (variable-length undirected pattern matching
becomes bounded reachability, `shortestPath` becomes a predicate over
undirected paths of minimal length).
-/

namespace AutoKG

/-! ## Relationship-type normalization

`neo4j_manager.load_processed_data` defines
`norm_type(rt) = re.sub(r'[^A-Z_]', '', rt.upper().replace('-', '_'))`
and uses it as `norm_type(rtype) or 'RELATES_TO'`.  Inputs are strings,
so the `isinstance` branch is the one modelled. -/

/-- A character kept by the `[^A-Z_]` strip: an upper-case ASCII letter
or the underscore. -/
def keepChar (c : Char) : Bool :=
  ('A' ≤ c && c ≤ 'Z') || c = '_'

/-- `rt.upper().replace('-', '_')` followed by the `re.sub` strip, at the
character-list level (ASCII upper-casing, as `str.upper` does on the
relationship labels that occur). -/
def normTypeRaw (s : String) : String :=
  String.mk (((s.data.map Char.toUpper).map
    (fun c => if c = '-' then '_' else c)).filter keepChar)

/-- The call-site normalization `norm_type(rtype) or 'RELATES_TO'`:
the empty string is falsy in Python, so an empty strip result falls back
to `RELATES_TO`. -/
def normType (s : String) : String :=
  let r := normTypeRaw s
  if r = "" then "RELATES_TO" else r

example : normType "is-a" = "IS_A" := by decide
example : normType "" = "RELATES_TO" := by decide
example : normType "!!!" = "RELATES_TO" := by decide
example : normType "uses" = "USES" := by decide

theorem normTypeRaw_chars (s : String) :
    ∀ c ∈ (normTypeRaw s).data, keepChar c = true := by
  intro c hc
  exact (by simpa [normTypeRaw] using hc : _ ∧ keepChar c = true).2

theorem normType_chars (s : String) :
    normType s ≠ "" ∧ ∀ c ∈ (normType s).data, keepChar c = true := by
  unfold normType
  by_cases h : normTypeRaw s = ""
  · refine ⟨by simp [h], ?_⟩
    intro c hc
    simp [h] at hc
    rcases hc with h1 | h1 | h1 | h1 | h1 | h1 | h1 | h1 | h1 | h1 <;> simp [h1, keepChar]
  · refine ⟨by simp [h], ?_⟩
    intro c hc
    simp only [if_neg h] at hc
    exact normTypeRaw_chars s c hc

/-! ## The persistent store (`neo4j_manager.Neo4jKnowledgeGraph`)

The store is the multiset of `Concept` nodes (keyed by `title`) and typed
relationships the Cypher `MERGE` statements maintain.  `datetime()` is an
explicit clock that ticks once per database call. -/

/-- Attributes of a `Concept` node (beyond its key, the title). -/
structure NodeData where
  summary : String
  url : String
  categories : List String
  createdAt : Nat
  deriving Repr, DecidableEq

/-- A typed relationship `(a)-[r:TYPE]->(b)`; the loader passes no custom
properties, so `created_at` is the only relationship property. -/
structure EdgeRec where
  source : String
  target : String
  rtype : String
  createdAt : Nat
  deriving Repr, DecidableEq

/-- The persistent graph-store state. -/
structure KG where
  nodes : List (String × NodeData)
  edges : List EdgeRec
  clock : Nat
  deriving Repr, DecidableEq

/-- The empty store. -/
def KG.empty : KG := ⟨[], [], 0⟩

/-- Titles present in the store. -/
def KG.titles (g : KG) : List String := g.nodes.map Prod.fst

/-- The `(source, target, type)` identity keys of the store's edges. -/
def KG.edgeKeys (g : KG) : List (String × String × String) :=
  g.edges.map (fun e => (e.source, e.target, e.rtype))

/-- `create_concept_node`:
`MERGE (c:Concept {title: $title}) SET c.summary = …, c.url = …,
c.categories = …, c.created_at = datetime()`.
`MERGE` matches the node by title or creates it; the `SET` clause runs in
either case, so every field — `created_at` included — is overwritten with
the current values. -/
def createConceptNode (title summary url : String) (categories : List String)
    (g : KG) : KG :=
  let nd : NodeData := ⟨summary, url, categories, g.clock⟩
  { nodes :=
      if title ∈ g.titles then
        g.nodes.map (fun p => if p.1 = title then (p.1, nd) else p)
      else
        g.nodes ++ [(title, nd)]
    edges := g.edges
    clock := g.clock + 1 }

/-- `create_relationship`:
`MATCH (a {title:$from}) MATCH (b {title:$to})
MERGE (a)-[r:TYPE]->(b) SET r.created_at = datetime()`.
If either endpoint is absent the `MATCH` produces no rows and nothing is
written; otherwise the edge is merged by its `(source, target, type)` key
and its `created_at` is overwritten. -/
def createRelationship (src tgt rtype : String) (g : KG) : KG :=
  if src ∈ g.titles ∧ tgt ∈ g.titles then
    { nodes := g.nodes
      edges :=
        if (src, tgt, rtype) ∈ g.edgeKeys then
          g.edges.map (fun e =>
            if e.source = src ∧ e.target = tgt ∧ e.rtype = rtype then
              { e with createdAt := g.clock }
            else e)
        else
          g.edges ++ [⟨src, tgt, rtype, g.clock⟩]
      clock := g.clock + 1 }
  else
    { g with clock := g.clock + 1 }

/-! ### The loader input (`processed_concepts.json` shape)

A mapping from concept title to
`{original_data: {summary, url, categories, links}, relationships: [[src,tgt,type],…]}`.
Python dicts iterate in insertion order, so the mapping is an association
list. -/

/-- `original_data` of a processed concept. -/
structure OrigData where
  summary : String
  url : String
  categories : List String
  links : List String
  deriving Repr, DecidableEq

/-- One processed-concepts entry. -/
structure PData where
  orig : OrigData
  rels : List (String × String × String)
  deriving Repr, DecidableEq

/-- The processed-concepts mapping. -/
abbrev PInput := List (String × PData)

/-- The keys of the mapping (`x in processed_data` membership tests). -/
def pKeys (input : PInput) : List String := input.map Prod.fst

/-- `load_processed_data`, pass 1: create a node for every entry. -/
def loadPass1 (input : PInput) (g : KG) : KG :=
  input.foldl (fun g p =>
    createConceptNode p.1 p.2.orig.summary p.2.orig.url p.2.orig.categories g) g

/-- `load_processed_data`, pass 2, body for one relationship triple of the
entry `(title, pdata)`:
```
src_t = src if src in processed_data else title
create_concept_node(src_t, …pdata['original_data']…)
if tgt_t not in [title] and tgt_t: create_concept_node(tgt_t, '', '', [])
create_relationship(src_t, tgt_t, norm_type(rtype) or 'RELATES_TO')
``` -/
def loadRelStep (keys : List String) (title : String) (pd : PData)
    (g : KG) (r : String × String × String) : KG :=
  let srcT := if r.1 ∈ keys then r.1 else title
  let g := createConceptNode srcT pd.orig.summary pd.orig.url pd.orig.categories g
  let g := if r.2.1 ≠ title ∧ r.2.1 ≠ "" then
    createConceptNode r.2.1 "" "" [] g else g
  createRelationship srcT r.2.1 (normType r.2.2) g

/-- `load_processed_data`, pass 2: typed relationships. -/
def loadPass2 (input : PInput) (g : KG) : KG :=
  input.foldl (fun g p => p.2.rels.foldl (loadRelStep (pKeys input) p.1 p.2) g) g

/-- `load_processed_data`, pass 3: `LINKS_TO` edges from `original_data.links`,
only when the linked title is a key of the mapping. -/
def loadPass3 (input : PInput) (g : KG) : KG :=
  input.foldl (fun g p => p.2.orig.links.foldl (fun g link =>
    if link ∈ pKeys input then createRelationship p.1 link "LINKS_TO" g
    else g) g) g

/-- `load_processed_data`: nodes first, then typed relationships, then raw
`LINKS_TO` edges. -/
def loadProcessedData (input : PInput) (g : KG) : KG :=
  loadPass3 input (loadPass2 input (loadPass1 input g))

/-! ## Association-list lookup and the observable node view -/

/-- First association for a title (the value `MATCH (c {title:…})` sees). -/
def assocFind (l : List (String × NodeData)) (t : String) : Option NodeData :=
  match l with
  | [] => none
  | p :: rest => if p.1 = t then some p.2 else assocFind rest t

/-- The observable attributes of a node: `(summary, url, categories)` —
the shape every query operation exports (`created_at` is not part of the
exported node shape). -/
def KG.viewNode (g : KG) (t : String) : Option (String × String × List String) :=
  (assocFind g.nodes t).map fun nd => (nd.summary, nd.url, nd.categories)

theorem assocFind_append (l₁ l₂ : List (String × NodeData)) (t : String) :
    assocFind (l₁ ++ l₂) t = ((assocFind l₁ t).orElse fun _ => assocFind l₂ t) := by
  induction l₁ with
  | nil => simp [assocFind, Option.orElse]
  | cons p rest ih =>
    by_cases h : p.1 = t <;> simp [assocFind, h, ih, Option.orElse]

theorem assocFind_eq_none_of_not_mem (l : List (String × NodeData)) (t : String)
    (h : t ∉ l.map Prod.fst) : assocFind l t = none := by
  induction l with
  | nil => rfl
  | cons p rest ih =>
    simp only [List.map_cons, List.mem_cons] at h
    push_neg at h
    have hp : p.1 ≠ t := fun hc => h.1 hc.symm
    simp [assocFind, hp, ih h.2]

theorem assocFind_map_update_self (l : List (String × NodeData)) (t : String)
    (nd : NodeData) (h : t ∈ l.map Prod.fst) :
    assocFind (l.map fun p => if p.1 = t then (p.1, nd) else p) t = some nd := by
  induction l with
  | nil => simp at h
  | cons p rest ih =>
    by_cases hp : p.1 = t
    · simp [assocFind, hp]
    · simp only [List.map_cons, List.mem_cons] at h
      rcases h with h | h
      · exact absurd h.symm hp
      · simp [assocFind, hp, ih h]

theorem assocFind_map_update_ne (l : List (String × NodeData)) (t t' : String)
    (nd : NodeData) (h : t' ≠ t) :
    assocFind (l.map fun p => if p.1 = t then (p.1, nd) else p) t' = assocFind l t' := by
  induction l with
  | nil => rfl
  | cons p rest ih =>
    by_cases hp : p.1 = t
    · have htt : t ≠ t' := fun hc => h hc.symm
      simp [assocFind, hp, htt, ih]
    · by_cases hp' : p.1 = t' <;> simp [assocFind, hp, hp', h, ih]

/-! ### Per-operation facts -/

theorem titles_createConceptNode (t' s u : String) (c : List String) (g : KG) :
    (createConceptNode t' s u c g).titles =
      if t' ∈ g.titles then g.titles else g.titles ++ [t'] := by
  by_cases h : t' ∈ g.titles
  · rw [if_pos h]
    show List.map Prod.fst (if t' ∈ g.titles then _ else _) = _
    rw [if_pos h, List.map_map]
    show List.map (Prod.fst ∘ _) g.nodes = List.map Prod.fst g.nodes
    congr 1
    funext p
    by_cases hp : p.1 = t' <;> simp [hp]
  · rw [if_neg h]
    show List.map Prod.fst (if t' ∈ g.titles then _ else _) = _
    rw [if_neg h, List.map_append]
    rfl

theorem mem_titles_createConceptNode (t t' s u : String) (c : List String) (g : KG) :
    t ∈ (createConceptNode t' s u c g).titles ↔ t = t' ∨ t ∈ g.titles := by
  rw [titles_createConceptNode]
  by_cases h : t' ∈ g.titles
  · simp only [h, if_true]
    constructor
    · exact Or.inr
    · rintro (rfl | ht) <;> [exact h; exact ht]
  · simp only [h, if_false, List.mem_append, List.mem_singleton]
    tauto

theorem edges_createConceptNode (t' s u : String) (c : List String) (g : KG) :
    (createConceptNode t' s u c g).edges = g.edges := by
  by_cases h : t' ∈ g.titles <;> simp [createConceptNode, h]

theorem nodes_createRelationship (a b τ : String) (g : KG) :
    (createRelationship a b τ g).nodes = g.nodes := by
  by_cases h : a ∈ g.titles ∧ b ∈ g.titles
  · by_cases hk : (a, b, τ) ∈ g.edgeKeys <;> simp [createRelationship, h, hk]
  · simp [createRelationship, h]

theorem titles_createRelationship (a b τ : String) (g : KG) :
    (createRelationship a b τ g).titles = g.titles := by
  simp [KG.titles, nodes_createRelationship]

theorem viewNode_createRelationship (a b τ t : String) (g : KG) :
    (createRelationship a b τ g).viewNode t = g.viewNode t := by
  simp [KG.viewNode, nodes_createRelationship]

theorem viewNode_createConceptNode (t t' s u : String) (c : List String) (g : KG) :
    (createConceptNode t' s u c g).viewNode t =
      if t = t' then some (s, u, c) else g.viewNode t := by
  by_cases h : t' ∈ g.titles
  · by_cases ht : t = t'
    · subst ht
      simp [KG.viewNode, createConceptNode, h, assocFind_map_update_self g.nodes t _ h]
    · simp [KG.viewNode, createConceptNode, h, ht,
        assocFind_map_update_ne g.nodes t' t _ ht]
  · by_cases ht : t = t'
    · subst ht
      simp [KG.viewNode, createConceptNode, h, assocFind_append,
        assocFind_eq_none_of_not_mem g.nodes t h, assocFind, Option.orElse]
    · have ht' : t' ≠ t := fun hc => ht hc.symm
      have hnodes : (createConceptNode t' s u c g).nodes
          = g.nodes ++ [(t', ⟨s, u, c, g.clock⟩)] := by
        simp [createConceptNode, h]
      rw [if_neg ht]
      unfold KG.viewNode
      rw [hnodes, assocFind_append]
      cases hh : assocFind g.nodes t <;> simp [hh, assocFind, ht', Option.orElse]

theorem mem_edgeKeys_createRelationship (k : String × String × String)
    (a b τ : String) (g : KG) :
    k ∈ (createRelationship a b τ g).edgeKeys ↔
      k ∈ g.edgeKeys ∨ (k = (a, b, τ) ∧ a ∈ g.titles ∧ b ∈ g.titles) := by
  by_cases h : a ∈ g.titles ∧ b ∈ g.titles
  · by_cases hk : (a, b, τ) ∈ g.edgeKeys
    · have hmap : (createRelationship a b τ g).edgeKeys = g.edgeKeys := by
        unfold createRelationship
        rw [if_pos h, if_pos hk]
        show List.map _ (List.map _ g.edges) = _
        rw [List.map_map]
        congr 1
        funext e
        by_cases he : e.source = a ∧ e.target = b ∧ e.rtype = τ <;> simp [he]
      rw [hmap]
      constructor
      · exact Or.inl
      · rintro (hh | ⟨rfl, -⟩) <;> [exact hh; exact hk]
    · have hline : (createRelationship a b τ g).edgeKeys = g.edgeKeys ++ [(a, b, τ)] := by
        unfold createRelationship
        rw [if_pos h, if_neg hk]
        show List.map _ (g.edges ++ _) = _
        rw [List.map_append]
        rfl
      rw [hline]
      simp only [List.mem_append, List.mem_singleton]
      tauto
  · have hline : (createRelationship a b τ g).edgeKeys = g.edgeKeys := by
      unfold createRelationship
      rw [if_neg h]
      rfl
    rw [hline]
    constructor
    · exact Or.inl
    · rintro (hh | ⟨rfl, h2⟩) <;> [exact hh; exact absurd h2 h]

theorem mem_edgeKeys_createConceptNode (k : String × String × String)
    (t' s u : String) (c : List String) (g : KG) :
    k ∈ (createConceptNode t' s u c g).edgeKeys ↔ k ∈ g.edgeKeys := by
  simp [KG.edgeKeys, edges_createConceptNode]

/-! ## The loader as a flat sequence of store operations

`load_processed_data` is three nested loops over its input; each loop body
performs `create_concept_node` / `create_relationship` calls.  Flattening
the loops into one operation list makes last-write reasoning about the
final state possible: the operation list depends only on the input, never
on the store state. -/

/-- One store write: a node upsert or an edge merge. -/
inductive KGOp where
  | putNode (title summary url : String) (categories : List String)
  | mergeEdge (src tgt rtype : String)
  deriving Repr, DecidableEq

/-- Execute one operation. -/
def applyOp (g : KG) : KGOp → KG
  | .putNode t s u c => createConceptNode t s u c g
  | .mergeEdge a b τ => createRelationship a b τ g

/-- Execute a list of operations left to right. -/
def applyOps (g : KG) (ops : List KGOp) : KG := ops.foldl applyOp g

theorem applyOps_append (g : KG) (l₁ l₂ : List KGOp) :
    applyOps g (l₁ ++ l₂) = applyOps (applyOps g l₁) l₂ :=
  List.foldl_append _ _ _ _

/-- Operations of pass 1. -/
def pass1Ops (input : PInput) : List KGOp :=
  input.map fun p => .putNode p.1 p.2.orig.summary p.2.orig.url p.2.orig.categories

/-- Operations for one relationship triple of pass 2. -/
def relOps (keys : List String) (title : String) (pd : PData)
    (r : String × String × String) : List KGOp :=
  let srcT := if r.1 ∈ keys then r.1 else title
  [.putNode srcT pd.orig.summary pd.orig.url pd.orig.categories]
    ++ (if r.2.1 ≠ title ∧ r.2.1 ≠ "" then [.putNode r.2.1 "" "" []] else [])
    ++ [.mergeEdge srcT r.2.1 (normType r.2.2)]

/-- Operations for all relationship triples of one entry. -/
def relsOps (keys : List String) (title : String) (pd : PData) :
    List (String × String × String) → List KGOp
  | [] => []
  | r :: rs => relOps keys title pd r ++ relsOps keys title pd rs

/-- Operations of pass 2. -/
def pass2Ops (keys : List String) : PInput → List KGOp
  | [] => []
  | p :: ps => relsOps keys p.1 p.2 p.2.rels ++ pass2Ops keys ps

/-- Operations for the links of one entry in pass 3. -/
def linkOps (keys : List String) (title : String) : List String → List KGOp
  | [] => []
  | l :: ls =>
      (if l ∈ keys then [KGOp.mergeEdge title l "LINKS_TO"] else []) ++ linkOps keys title ls

/-- Operations of pass 3. -/
def pass3Ops (keys : List String) : PInput → List KGOp
  | [] => []
  | p :: ps => linkOps keys p.1 p.2.orig.links ++ pass3Ops keys ps

/-- The complete operation sequence of `load_processed_data`. -/
def loadOps (input : PInput) : List KGOp :=
  pass1Ops input ++ pass2Ops (pKeys input) input ++ pass3Ops (pKeys input) input

theorem loadPass1_eq_applyOps (input : PInput) (g : KG) :
    loadPass1 input g = applyOps g (pass1Ops input) := by
  induction input generalizing g with
  | nil => rfl
  | cons p ps ih => simp [loadPass1, pass1Ops, applyOps, applyOp] at ih ⊢; exact ih _

theorem loadRelStep_eq_applyOps (keys : List String) (title : String) (pd : PData)
    (g : KG) (r : String × String × String) :
    loadRelStep keys title pd g r = applyOps g (relOps keys title pd r) := by
  by_cases h : r.2.1 ≠ title ∧ r.2.1 ≠ "" <;>
    simp [loadRelStep, relOps, h, applyOps, applyOp]

theorem foldl_loadRelStep_eq_applyOps (keys : List String) (title : String) (pd : PData)
    (rs : List (String × String × String)) (g : KG) :
    rs.foldl (loadRelStep keys title pd) g = applyOps g (relsOps keys title pd rs) := by
  induction rs generalizing g with
  | nil => rfl
  | cons r rs ih =>
    rw [List.foldl_cons, relsOps, applyOps_append, ih, loadRelStep_eq_applyOps]

theorem loadPass2_eq_applyOps (input ps : PInput) (g : KG) :
    ps.foldl (fun g p => p.2.rels.foldl (loadRelStep (pKeys input) p.1 p.2) g) g
      = applyOps g (pass2Ops (pKeys input) ps) := by
  induction ps generalizing g with
  | nil => rfl
  | cons p ps ih =>
    rw [List.foldl_cons, pass2Ops, applyOps_append, ih, foldl_loadRelStep_eq_applyOps]

theorem foldl_link_eq_applyOps (keys : List String) (title : String)
    (ls : List String) (g : KG) :
    ls.foldl (fun g link =>
        if link ∈ keys then createRelationship title link "LINKS_TO" g else g) g
      = applyOps g (linkOps keys title ls) := by
  induction ls generalizing g with
  | nil => rfl
  | cons l ls ih =>
    rw [List.foldl_cons, linkOps, applyOps_append, ih]
    by_cases h : l ∈ keys <;> simp [h, applyOps, applyOp]

theorem loadPass3_eq_applyOps (input ps : PInput) (g : KG) :
    ps.foldl (fun g p => p.2.orig.links.foldl (fun g link =>
        if link ∈ pKeys input then createRelationship p.1 link "LINKS_TO" g else g) g) g
      = applyOps g (pass3Ops (pKeys input) ps) := by
  induction ps generalizing g with
  | nil => rfl
  | cons p ps ih =>
    rw [List.foldl_cons, pass3Ops, applyOps_append, ih, foldl_link_eq_applyOps]

/-- `load_processed_data` is the execution of its operation list. -/
theorem loadProcessedData_eq_applyOps (input : PInput) (g : KG) :
    loadProcessedData input g = applyOps g (loadOps input) := by
  rw [loadProcessedData, loadOps, applyOps_append, applyOps_append,
    ← loadPass1_eq_applyOps, loadPass2, loadPass2_eq_applyOps, loadPass3,
    loadPass3_eq_applyOps]

/-! ### What an operation sequence does to the store -/

/-- The title written by a node upsert, if any. -/
def KGOp.putTitle? : KGOp → Option String
  | .putNode t _ _ _ => some t
  | .mergeEdge _ _ _ => none

theorem mem_titles_applyOp (g : KG) (op : KGOp) (t : String) :
    t ∈ (applyOp g op).titles ↔ op.putTitle? = some t ∨ t ∈ g.titles := by
  cases op with
  | putNode t' s u c =>
    rw [applyOp, mem_titles_createConceptNode]
    simp [KGOp.putTitle?, eq_comm]
  | mergeEdge a b τ =>
    rw [applyOp, titles_createRelationship]
    simp [KGOp.putTitle?]

theorem mem_titles_applyOps (g : KG) (ops : List KGOp) (t : String) :
    t ∈ (applyOps g ops).titles ↔
      t ∈ g.titles ∨ ∃ op ∈ ops, op.putTitle? = some t := by
  induction ops generalizing g with
  | nil => simp [applyOps]
  | cons op ops ih =>
    show t ∈ (applyOps (applyOp g op) ops).titles ↔ _
    rw [ih, mem_titles_applyOp]
    simp only [List.mem_cons]
    constructor
    · rintro ((h | h) | ⟨op', h1, h2⟩)
      · exact Or.inr ⟨op, Or.inl rfl, h⟩
      · exact Or.inl h
      · exact Or.inr ⟨op', Or.inr h1, h2⟩
    · rintro (h | ⟨op', (rfl | h1), h2⟩)
      · exact Or.inl (Or.inr h)
      · exact Or.inl (Or.inl h2)
      · exact Or.inr ⟨op', h1, h2⟩

/-- Store titles only grow under an operation sequence. -/
theorem titles_mono_applyOps (g : KG) (ops : List KGOp) (t : String)
    (h : t ∈ g.titles) : t ∈ (applyOps g ops).titles :=
  (mem_titles_applyOps g ops t).mpr (Or.inl h)

/-- The last `(summary, url, categories)` written to title `t` by an
operation sequence, if any. -/
def lastPut (t : String) : List KGOp → Option (String × String × List String)
  | [] => none
  | op :: ops =>
      (lastPut t ops).orElse fun _ =>
        match op with
        | .putNode t' s u c => if t' = t then some (s, u, c) else none
        | .mergeEdge _ _ _ => none

/-- The observable node view after an operation sequence: the last write
to that title, or the prior view when the sequence never writes it. -/
theorem viewNode_applyOps (g : KG) (ops : List KGOp) (t : String) :
    (applyOps g ops).viewNode t = ((lastPut t ops).orElse fun _ => g.viewNode t) := by
  induction ops generalizing g with
  | nil => simp [applyOps, lastPut, Option.orElse]
  | cons op ops ih =>
    show (applyOps (applyOp g op) ops).viewNode t = _
    rw [ih]
    show _ = ((lastPut t ops).orElse _).orElse _
    cases hl : lastPut t ops with
    | some v => simp [Option.orElse]
    | none =>
      simp only [Option.orElse, hl]
      cases op with
      | putNode t' s u c =>
        rw [applyOp, viewNode_createConceptNode]
        by_cases ht : t' = t
        · subst ht
          simp
        · have : ¬ t = t' := fun hc => ht hc.symm
          simp [ht, this]
      | mergeEdge a b τ =>
        rw [applyOp, viewNode_createRelationship]

/-- The edge keys introduced by an operation sequence run from state `g`:
a merge introduces its key exactly when both endpoints exist at the moment
it executes. -/
def edgeIntro (k : String × String × String) : List KGOp → KG → Prop
  | [], _ => False
  | op :: ops, g =>
      edgeIntro k ops (applyOp g op) ∨
        (op = .mergeEdge k.1 k.2.1 k.2.2 ∧ k.1 ∈ g.titles ∧ k.2.1 ∈ g.titles)

theorem mem_edgeKeys_applyOp (g : KG) (op : KGOp) (k : String × String × String) :
    k ∈ (applyOp g op).edgeKeys ↔
      k ∈ g.edgeKeys ∨
        (op = .mergeEdge k.1 k.2.1 k.2.2 ∧ k.1 ∈ g.titles ∧ k.2.1 ∈ g.titles) := by
  cases op with
  | putNode t' s u c =>
    rw [applyOp, mem_edgeKeys_createConceptNode]
    simp
  | mergeEdge a b τ =>
    rw [applyOp, mem_edgeKeys_createRelationship]
    constructor
    · rintro (h | ⟨rfl, h1, h2⟩)
      · exact Or.inl h
      · exact Or.inr ⟨rfl, h1, h2⟩
    · rintro (h | ⟨he, h1, h2⟩)
      · exact Or.inl h
      · cases he
        exact Or.inr ⟨rfl, h1, h2⟩

theorem mem_edgeKeys_applyOps (g : KG) (ops : List KGOp) (k : String × String × String) :
    k ∈ (applyOps g ops).edgeKeys ↔ k ∈ g.edgeKeys ∨ edgeIntro k ops g := by
  induction ops generalizing g with
  | nil => simp [applyOps, edgeIntro]
  | cons op ops ih =>
    show k ∈ (applyOps (applyOp g op) ops).edgeKeys ↔ _
    rw [ih, mem_edgeKeys_applyOp, edgeIntro]
    tauto

/-! ### Structure of the loader's operation list -/

theorem mem_relsOps (keys : List String) (title : String) (pd : PData)
    (rs : List (String × String × String)) (op : KGOp) :
    op ∈ relsOps keys title pd rs ↔ ∃ r ∈ rs, op ∈ relOps keys title pd r := by
  induction rs with
  | nil => simp [relsOps]
  | cons r rs ih => simp [relsOps, ih]

theorem mem_pass2Ops (keys : List String) (ps : PInput) (op : KGOp) :
    op ∈ pass2Ops keys ps ↔ ∃ p ∈ ps, op ∈ relsOps keys p.1 p.2 p.2.rels := by
  induction ps with
  | nil => simp [pass2Ops]
  | cons p ps ih => simp [pass2Ops, ih]

theorem mem_linkOps (keys : List String) (title : String) (ls : List String) (op : KGOp) :
    op ∈ linkOps keys title ls ↔
      ∃ l ∈ ls, l ∈ keys ∧ op = .mergeEdge title l "LINKS_TO" := by
  induction ls with
  | nil => simp [linkOps]
  | cons l ls ih =>
    by_cases h : l ∈ keys <;> simp [linkOps, h, ih]

theorem mem_pass3Ops (keys : List String) (ps : PInput) (op : KGOp) :
    op ∈ pass3Ops keys ps ↔ ∃ p ∈ ps, op ∈ linkOps keys p.1 p.2.orig.links := by
  induction ps with
  | nil => simp [pass3Ops]
  | cons p ps ih => simp [pass3Ops, ih]

theorem putTitle_pass1Ops (input : PInput) (t : String) :
    (∃ op ∈ pass1Ops input, op.putTitle? = some t) ↔ t ∈ pKeys input := by
  constructor
  · rintro ⟨op, hop, hput⟩
    rcases List.mem_map.mp hop with ⟨p, hp, rfl⟩
    simp only [KGOp.putTitle?, Option.some.injEq] at hput
    subst hput
    exact List.mem_map.mpr ⟨p, hp, rfl⟩
  · intro ht
    rcases List.mem_map.mp ht with ⟨p, hp, rfl⟩
    exact ⟨.putNode p.1 p.2.orig.summary p.2.orig.url p.2.orig.categories,
      List.mem_map.mpr ⟨p, hp, rfl⟩, rfl⟩

theorem putTitle_relOps (keys : List String) (title : String) (pd : PData)
    (r : String × String × String) (t : String) :
    (∃ op ∈ relOps keys title pd r, op.putTitle? = some t) ↔
      (t = if r.1 ∈ keys then r.1 else title) ∨
        (t = r.2.1 ∧ r.2.1 ≠ title ∧ r.2.1 ≠ "") := by
  constructor
  · rintro ⟨op, hop, hput⟩
    rw [relOps] at hop
    rcases List.mem_append.mp hop with hop | hop
    · rcases List.mem_append.mp hop with hop | hop
      · rw [List.mem_singleton] at hop
        subst hop
        exact Or.inl (Option.some.inj hput).symm
      · by_cases h : r.2.1 ≠ title ∧ r.2.1 ≠ ""
        · rw [if_pos h, List.mem_singleton] at hop
          subst hop
          exact Or.inr ⟨(Option.some.inj hput).symm, h⟩
        · rw [if_neg h] at hop
          exact absurd hop (List.not_mem_nil op)
    · rw [List.mem_singleton] at hop
      subst hop
      exact absurd hput (by simp [KGOp.putTitle?])
  · rintro (rfl | ⟨rfl, h⟩)
    · exact ⟨.putNode _ pd.orig.summary pd.orig.url pd.orig.categories,
        by rw [relOps]; simp, rfl⟩
    · exact ⟨.putNode r.2.1 "" "" [], by rw [relOps]; simp [h], rfl⟩

theorem putTitle_pass3Ops (keys : List String) (ps : PInput) (t : String) :
    ¬ ∃ op ∈ pass3Ops keys ps, op.putTitle? = some t := by
  rintro ⟨op, hop, hput⟩
  rcases (mem_pass3Ops keys ps op).mp hop with ⟨p, -, hl⟩
  rcases (mem_linkOps _ _ _ op).mp hl with ⟨l, -, -, rfl⟩
  simp [KGOp.putTitle?] at hput

theorem edgeIntro_append (k : String × String × String) (l₁ l₂ : List KGOp) (g : KG) :
    edgeIntro k (l₁ ++ l₂) g ↔ edgeIntro k l₁ g ∨ edgeIntro k l₂ (applyOps g l₁) := by
  induction l₁ generalizing g with
  | nil => simp [edgeIntro, applyOps]
  | cons op ops ih =>
    show edgeIntro k (op :: (ops ++ l₂)) g ↔ _
    rw [edgeIntro, edgeIntro, ih]
    show _ ↔ _ ∨ edgeIntro k l₂ (applyOps (applyOp g op) ops)
    tauto

theorem not_edgeIntro_pass1Ops (k : String × String × String) (input : PInput) (g : KG) :
    ¬ edgeIntro k (pass1Ops input) g := by
  induction input generalizing g with
  | nil => exact fun h => h
  | cons p ps ih =>
    show ¬ edgeIntro k (_ :: pass1Ops ps) g
    rw [edgeIntro]
    rintro (h | ⟨h, -⟩)
    · exact ih _ h
    · exact KGOp.noConfusion h

/-- Titles after pass 1: the prior titles plus the mapping's keys. -/
theorem mem_titles_pass1 (input : PInput) (g : KG) (t : String) :
    t ∈ (applyOps g (pass1Ops input)).titles ↔ t ∈ g.titles ∨ t ∈ pKeys input := by
  rw [mem_titles_applyOps]
  rw [show (∃ op ∈ pass1Ops input, op.putTitle? = some t) ↔ t ∈ pKeys input from
    putTitle_pass1Ops input t]

/-- Titles after the operations of one relationship triple. -/
theorem mem_titles_relOps (keys : List String) (title : String) (pd : PData)
    (r : String × String × String) (g : KG) (t : String) :
    t ∈ (applyOps g (relOps keys title pd r)).titles ↔
      t ∈ g.titles ∨ (t = if r.1 ∈ keys then r.1 else title) ∨
        (t = r.2.1 ∧ r.2.1 ≠ title ∧ r.2.1 ≠ "") := by
  rw [mem_titles_applyOps]
  rw [show (∃ op ∈ relOps keys title pd r, op.putTitle? = some t) ↔ _ from
    putTitle_relOps keys title pd r t]

/-- `edgeIntro` for the operations of one relationship triple: the merged
key, succeeding iff the target exists when the merge runs. -/
theorem edgeIntro_relOps (keys : List String) (title : String) (pd : PData)
    (r : String × String × String) (k : String × String × String) (g' : KG)
    (hkeys : ∀ x ∈ keys, x ∈ g'.titles) (htitle : title ∈ keys) :
    edgeIntro k (relOps keys title pd r) g' ↔
      k = (if r.1 ∈ keys then r.1 else title, r.2.1, normType r.2.2) ∧
        (r.2.1 ≠ "" ∨ r.2.1 ∈ g'.titles) := by
  have hsrc : (if r.1 ∈ keys then r.1 else title) ∈ keys := by
    split
    · assumption
    · exact htitle
  rw [relOps, edgeIntro_append]
  have h1 : ¬ edgeIntro k
      ([KGOp.putNode (if r.1 ∈ keys then r.1 else title)
          pd.orig.summary pd.orig.url pd.orig.categories] ++
        if r.2.1 ≠ title ∧ r.2.1 ≠ "" then [KGOp.putNode r.2.1 "" "" []] else []) g' := by
    rw [edgeIntro_append]
    rintro (h | h)
    · rcases h with h | ⟨h, -⟩
      · exact h
      · exact KGOp.noConfusion h
    · split at h
      · rcases h with h | ⟨h, -⟩
        · exact h
        · exact KGOp.noConfusion h
      · exact h
  rw [iff_iff_implies_and_implies]
  constructor
  · rintro (h | h)
    · exact absurd h h1
    · rcases h with h | ⟨hop, hin1, hin2⟩
      · exact absurd h (fun h => h)
      · have hk : k = (if r.1 ∈ keys then r.1 else title, r.2.1, normType r.2.2) := by
          cases k with
          | mk k1 k23 =>
            cases k23 with
            | mk k2 k3 =>
              injection hop with e1 e2 e3
              simp [e1, e2, e3]
        refine ⟨hk, ?_⟩
        subst hk
        rw [mem_titles_applyOps] at hin2
        rcases hin2 with hin2 | ⟨op, hop2, hput⟩
        · exact Or.inr hin2
        · rcases List.mem_append.mp hop2 with hop2 | hop2
          · rw [List.mem_singleton] at hop2
            subst hop2
            simp only [KGOp.putTitle?, Option.some.injEq] at hput
            exact Or.inr (hput ▸ hkeys _ hsrc)
          · split at hop2
            · rw [List.mem_singleton] at hop2
              subst hop2
              rename_i hcond
              exact Or.inl hcond.2
            · exact absurd hop2 (List.not_mem_nil op)
  · rintro ⟨hk, hcond⟩
    subst hk
    refine Or.inr (Or.inr ⟨rfl, ?_, ?_⟩)
    · show (if r.1 ∈ keys then r.1 else title) ∈ _
      rw [mem_titles_applyOps]
      exact Or.inl (hkeys _ hsrc)
    · show r.2.1 ∈ _
      rw [mem_titles_applyOps]
      rcases hcond with hne | hmem
      · by_cases ht : r.2.1 = title
        · have : r.2.1 ∈ keys := by rw [ht]; exact htitle
          exact Or.inl (hkeys _ this)
        · refine Or.inr ⟨.putNode r.2.1 "" "" [], ?_, rfl⟩
          have hm : KGOp.putNode r.2.1 "" "" [] ∈
              (if r.2.1 ≠ title ∧ r.2.1 ≠ "" then [KGOp.putNode r.2.1 "" "" []] else []) := by
            rw [if_pos ⟨ht, hne⟩]
            exact List.mem_singleton.mpr rfl
          exact List.mem_append.mpr (Or.inr hm)
      · exact Or.inl hmem

/-- `edgeIntro` over a whole relationship list, with the state-evolution
invariant: the running state extends `g₀` only by non-empty titles. -/
theorem edgeIntro_relsOps (keys : List String) (title : String) (pd : PData)
    (rs : List (String × String × String)) (k : String × String × String)
    (g₀ : KG) : ∀ g' : KG,
    (∀ x ∈ g₀.titles, x ∈ g'.titles) →
    (∀ x ∈ g'.titles, x ∈ g₀.titles ∨ x ≠ "") →
    (∀ x ∈ keys, x ∈ g'.titles) →
    title ∈ keys →
    (edgeIntro k (relsOps keys title pd rs) g' ↔
      ∃ r ∈ rs, k = (if r.1 ∈ keys then r.1 else title, r.2.1, normType r.2.2) ∧
        (r.2.1 ≠ "" ∨ r.2.1 ∈ g₀.titles)) := by
  induction rs with
  | nil =>
    intro g' _ _ _ _
    simp [relsOps, edgeIntro]
  | cons r rs ih =>
    intro g' hsub hstab hkeys htitle
    rw [relsOps, edgeIntro_append, edgeIntro_relOps keys title pd r k g' hkeys htitle,
      ih (applyOps g' (relOps keys title pd r))
        (fun x hx => titles_mono_applyOps _ _ _ (hsub x hx))
        (fun x hx => by
          rw [mem_titles_relOps] at hx
          rcases hx with hx | hx | ⟨hx, -, hne⟩
          · exact hstab x hx
          · subst hx
            have hsrc : (if r.1 ∈ keys then r.1 else title) ∈ keys := by
              split
              · assumption
              · exact htitle
            exact hstab _ (hkeys _ hsrc)
          · exact Or.inr (hx ▸ hne))
        (fun x hx => titles_mono_applyOps _ _ _ (hkeys x hx)) htitle]
    constructor
    · rintro (⟨hk, hc⟩ | ⟨r', hr', hk, hc⟩)
      · refine ⟨r, List.mem_cons_self r rs, hk, ?_⟩
        rcases hc with hc | hc
        · exact Or.inl hc
        · rcases hstab _ hc with h | h
          · exact Or.inr h
          · exact Or.inl h
      · exact ⟨r', List.mem_cons_of_mem r hr', hk, hc⟩
    · rintro ⟨r', hr', hk, hc⟩
      rcases List.mem_cons.mp hr' with rfl | hr'
      · refine Or.inl ⟨hk, ?_⟩
        rcases hc with hc | hc
        · exact Or.inl hc
        · exact Or.inr (hsub _ hc)
      · exact Or.inr ⟨r', hr', hk, hc⟩

/-- Titles never change across pass-2 operation lists beyond non-empty
additions; entry titles are keys, so `edgeIntro` over pass 2 collects the
relationship-derived keys. -/
theorem edgeIntro_pass2Ops (keys : List String) (ps : PInput)
    (k : String × String × String) (g₀ : KG) : ∀ g' : KG,
    (∀ x ∈ g₀.titles, x ∈ g'.titles) →
    (∀ x ∈ g'.titles, x ∈ g₀.titles ∨ x ≠ "") →
    (∀ x ∈ keys, x ∈ g'.titles) →
    (∀ p ∈ ps, p.1 ∈ keys) →
    (edgeIntro k (pass2Ops keys ps) g' ↔
      ∃ p ∈ ps, ∃ r ∈ p.2.rels,
        k = (if r.1 ∈ keys then r.1 else p.1, r.2.1, normType r.2.2) ∧
          (r.2.1 ≠ "" ∨ r.2.1 ∈ g₀.titles)) := by
  induction ps with
  | nil =>
    intro g' _ _ _ _
    simp [pass2Ops, edgeIntro]
  | cons p ps ih =>
    intro g' hsub hstab hkeys hps
    have htitle : p.1 ∈ keys := hps p (List.mem_cons_self p ps)
    have hstab2 : ∀ x ∈ (applyOps g' (relsOps keys p.1 p.2 p.2.rels)).titles,
        x ∈ g₀.titles ∨ x ≠ "" := by
      intro x hx
      rw [mem_titles_applyOps] at hx
      rcases hx with hx | ⟨op, hop, hput⟩
      · exact hstab x hx
      · rcases (mem_relsOps _ _ _ _ op).mp hop with ⟨r, -, hopr⟩
        rcases (putTitle_relOps keys p.1 p.2 r x).mp ⟨op, hopr, hput⟩ with hx | ⟨hx, -, hne⟩
        · subst hx
          have : (if r.1 ∈ keys then r.1 else p.1) ∈ keys := by
            split
            · assumption
            · exact htitle
          exact hstab _ (hkeys _ this)
        · exact Or.inr (hx ▸ hne)
    rw [pass2Ops, edgeIntro_append,
      edgeIntro_relsOps keys p.1 p.2 p.2.rels k g₀ g' hsub hstab hkeys htitle,
      ih (applyOps g' (relsOps keys p.1 p.2 p.2.rels))
        (fun x hx => titles_mono_applyOps _ _ _ (hsub x hx)) hstab2
        (fun x hx => titles_mono_applyOps _ _ _ (hkeys x hx))
        (fun q hq => hps q (List.mem_cons_of_mem p hq))]
    constructor
    · rintro (⟨r, hr, hk, hc⟩ | ⟨q, hq, r, hr, hk, hc⟩)
      · exact ⟨p, List.mem_cons_self p ps, r, hr, hk, hc⟩
      · exact ⟨q, List.mem_cons_of_mem p hq, r, hr, hk, hc⟩
    · rintro ⟨q, hq, r, hr, hk, hc⟩
      rcases List.mem_cons.mp hq with rfl | hq
      · exact Or.inl ⟨r, hr, hk, hc⟩
      · exact Or.inr ⟨q, hq, r, hr, hk, hc⟩

/-- Merge operations leave titles unchanged. -/
theorem titles_applyOps_merges (g : KG) (ops : List KGOp)
    (h : ∀ op ∈ ops, op.putTitle? = none) (t : String) :
    t ∈ (applyOps g ops).titles ↔ t ∈ g.titles := by
  rw [mem_titles_applyOps]
  constructor
  · rintro (hx | ⟨op, hop, hput⟩)
    · exact hx
    · rw [h op hop] at hput
      exact Option.noConfusion hput
  · exact Or.inl

theorem putTitle_linkOps (keys : List String) (title : String) (ls : List String)
    (op : KGOp) (hop : op ∈ linkOps keys title ls) : op.putTitle? = none := by
  rcases (mem_linkOps keys title ls op).mp hop with ⟨l, -, -, rfl⟩
  rfl

/-- `edgeIntro` over the link operations of one entry: every merge succeeds
because the entry title and the linked key both exist. -/
theorem edgeIntro_linkOps (keys : List String) (title : String) (ls : List String)
    (k : String × String × String) : ∀ g' : KG,
    (∀ x ∈ keys, x ∈ g'.titles) → title ∈ g'.titles →
    (edgeIntro k (linkOps keys title ls) g' ↔
      ∃ l ∈ ls, l ∈ keys ∧ k = (title, l, "LINKS_TO")) := by
  induction ls with
  | nil =>
    intro g' _ _
    simp [linkOps, edgeIntro]
  | cons l ls ih =>
    intro g' hkeys htitle
    rw [linkOps]
    by_cases h : l ∈ keys
    · rw [if_pos h]
      show edgeIntro k (KGOp.mergeEdge title l "LINKS_TO" :: linkOps keys title ls) g' ↔ _
      rw [edgeIntro]
      have htail := ih (applyOp g' (.mergeEdge title l "LINKS_TO"))
        (fun x hx => by rw [applyOp, titles_createRelationship]; exact hkeys x hx)
        (by rw [applyOp, titles_createRelationship]; exact htitle)
      rw [htail]
      constructor
      · rintro (⟨l', hl', hk', hkk⟩ | ⟨hop, -, -⟩)
        · exact ⟨l', List.mem_cons_of_mem l hl', hk', hkk⟩
        · refine ⟨l, List.mem_cons_self l ls, h, ?_⟩
          cases k with
          | mk k1 k23 =>
            cases k23 with
            | mk k2 k3 =>
              injection hop with e1 e2 e3
              simp [e1, e2, e3]
      · rintro ⟨l', hl', hk', hkk⟩
        rcases List.mem_cons.mp hl' with rfl | hl'
        · subst hkk
          exact Or.inr ⟨rfl, htitle, hkeys _ hk'⟩
        · exact Or.inl ⟨l', hl', hk', hkk⟩
    · rw [if_neg h, List.nil_append, ih g' hkeys htitle]
      constructor
      · rintro ⟨l', hl', hk', hkk⟩
        exact ⟨l', List.mem_cons_of_mem l hl', hk', hkk⟩
      · rintro ⟨l', hl', hk', hkk⟩
        rcases List.mem_cons.mp hl' with rfl | hl'
        · exact absurd hk' h
        · exact ⟨l', hl', hk', hkk⟩

/-- `edgeIntro` over pass 3. -/
theorem edgeIntro_pass3Ops (keys : List String) (ps : PInput)
    (k : String × String × String) : ∀ g' : KG,
    (∀ x ∈ keys, x ∈ g'.titles) → (∀ p ∈ ps, p.1 ∈ keys) →
    (edgeIntro k (pass3Ops keys ps) g' ↔
      ∃ p ∈ ps, ∃ l ∈ p.2.orig.links, l ∈ keys ∧ k = (p.1, l, "LINKS_TO")) := by
  induction ps with
  | nil =>
    intro g' _ _
    simp [pass3Ops, edgeIntro]
  | cons p ps ih =>
    intro g' hkeys hps
    have htitle : p.1 ∈ g'.titles := hkeys _ (hps p (List.mem_cons_self p ps))
    have hconst : ∀ x ∈ keys, x ∈ (applyOps g' (linkOps keys p.1 p.2.orig.links)).titles := by
      intro x hx
      rw [titles_applyOps_merges _ _ (putTitle_linkOps keys p.1 p.2.orig.links)]
      exact hkeys x hx
    rw [pass3Ops, edgeIntro_append,
      edgeIntro_linkOps keys p.1 p.2.orig.links k g' hkeys htitle,
      ih (applyOps g' (linkOps keys p.1 p.2.orig.links)) hconst
        (fun q hq => hps q (List.mem_cons_of_mem p hq))]
    constructor
    · rintro (⟨l, hl, hk, hkk⟩ | ⟨q, hq, l, hl, hk, hkk⟩)
      · exact ⟨p, List.mem_cons_self p ps, l, hl, hk, hkk⟩
      · exact ⟨q, List.mem_cons_of_mem p hq, l, hl, hk, hkk⟩
    · rintro ⟨q, hq, l, hl, hk, hkk⟩
      rcases List.mem_cons.mp hq with rfl | hq
      · exact Or.inl ⟨l, hl, hk, hkk⟩
      · exact Or.inr ⟨q, hq, l, hl, hk, hkk⟩

/-- Titles after `load_processed_data`: prior titles, the mapping's keys,
and the non-empty targets of relationship triples. -/
theorem mem_titles_load (input : PInput) (g : KG) (t : String) :
    t ∈ (loadProcessedData input g).titles ↔
      t ∈ g.titles ∨ t ∈ pKeys input ∨
        ∃ p ∈ input, ∃ r ∈ p.2.rels, t = r.2.1 ∧ r.2.1 ≠ "" := by
  rw [loadProcessedData_eq_applyOps, mem_titles_applyOps]
  constructor
  · rintro (h | ⟨op, hop, hput⟩)
    · exact Or.inl h
    · rw [loadOps] at hop
      rcases List.mem_append.mp hop with hop | hop3
      · rcases List.mem_append.mp hop with hop1 | hop2
        · exact Or.inr (Or.inl ((putTitle_pass1Ops input t).mp ⟨op, hop1, hput⟩))
        · rcases (mem_pass2Ops _ _ op).mp hop2 with ⟨p, hp, hrel⟩
          rcases (mem_relsOps _ _ _ _ op).mp hrel with ⟨r, hr, hop⟩
          rcases (putTitle_relOps _ _ _ r t).mp ⟨op, hop, hput⟩ with h | ⟨rfl, -, hne⟩
          · subst h
            split
            · rename_i hk
              exact Or.inr (Or.inl hk)
            · exact Or.inr (Or.inl (List.mem_map.mpr ⟨p, hp, rfl⟩))
          · exact Or.inr (Or.inr ⟨p, hp, r, hr, rfl, hne⟩)
      · exact absurd ⟨op, hop3, hput⟩ (putTitle_pass3Ops _ _ t)
  · rintro (h | hk | ⟨p, hp, r, hr, rfl, hne⟩)
    · exact Or.inl h
    · refine Or.inr ?_
      rcases (putTitle_pass1Ops input t).mpr hk with ⟨op, hop, hput⟩
      exact ⟨op, by simp [loadOps, hop], hput⟩
    · refine Or.inr ?_
      by_cases ht : r.2.1 = p.1
      · have hk : r.2.1 ∈ pKeys input := ht ▸ List.mem_map.mpr ⟨p, hp, rfl⟩
        rcases (putTitle_pass1Ops input r.2.1).mpr hk with ⟨op, hop, hput⟩
        exact ⟨op, by simp [loadOps, hop], hput⟩
      · rcases (putTitle_relOps (pKeys input) p.1 p.2 r r.2.1).mpr
          (Or.inr ⟨rfl, ht, hne⟩) with ⟨op, hop, hput⟩
        have : op ∈ pass2Ops (pKeys input) input :=
          (mem_pass2Ops _ _ op).mpr ⟨p, hp, (mem_relsOps _ _ _ _ op).mpr ⟨r, hr, hop⟩⟩
        exact ⟨op, by simp [loadOps, this], hput⟩

/-- Edge keys after `load_processed_data`, over any starting store:
prior edges; one edge per relationship triple, from the resolved source
(`src` when it is a key, else the enclosing title) to the raw target with
normalized type, provided the target node exists by merge time (non-empty,
or already a title, or a key); and one `LINKS_TO` edge per link whose
target is a key. -/
theorem mem_edgeKeys_load (input : PInput) (g : KG) (k : String × String × String) :
    k ∈ (loadProcessedData input g).edgeKeys ↔
      k ∈ g.edgeKeys
      ∨ (∃ p ∈ input, ∃ r ∈ p.2.rels,
          k = (if r.1 ∈ pKeys input then r.1 else p.1, r.2.1, normType r.2.2)
          ∧ (r.2.1 ≠ "" ∨ r.2.1 ∈ g.titles ∨ r.2.1 ∈ pKeys input))
      ∨ (∃ p ∈ input, ∃ l ∈ p.2.orig.links, l ∈ pKeys input ∧ k = (p.1, l, "LINKS_TO")) := by
  rw [loadProcessedData_eq_applyOps, mem_edgeKeys_applyOps, loadOps,
    edgeIntro_append, edgeIntro_append]
  set g1 := applyOps g (pass1Ops input) with hg1
  have hkeys1 : ∀ x ∈ pKeys input, x ∈ g1.titles := by
    intro x hx
    rw [hg1, mem_titles_pass1]
    exact Or.inr hx
  have hpkeys : ∀ p ∈ input, p.1 ∈ pKeys input := fun p hp => List.mem_map.mpr ⟨p, hp, rfl⟩
  have h2 := edgeIntro_pass2Ops (pKeys input) input k g1 g1
    (fun x hx => hx) (fun x _ => Or.inl ‹x ∈ g1.titles›) hkeys1 hpkeys
  have hkeys2 : ∀ x ∈ pKeys input,
      x ∈ (applyOps g1 (pass2Ops (pKeys input) input)).titles :=
    fun x hx => titles_mono_applyOps _ _ _ (hkeys1 x hx)
  have h3 := edgeIntro_pass3Ops (pKeys input) input k
    (applyOps g1 (pass2Ops (pKeys input) input)) hkeys2 hpkeys
  rw [applyOps_append]
  rw [← hg1, h2, h3]
  have hcond : ∀ r : String × String × String,
      (r.2.1 ≠ "" ∨ r.2.1 ∈ g1.titles) ↔
        (r.2.1 ≠ "" ∨ r.2.1 ∈ g.titles ∨ r.2.1 ∈ pKeys input) := by
    intro r
    rw [hg1, mem_titles_pass1]
  constructor
  · rintro (h | (h | h) | h)
    · exact Or.inl h
    · exact absurd h (not_edgeIntro_pass1Ops k input g)
    · rcases h with ⟨p, hp, r, hr, hk, hc⟩
      exact Or.inr (Or.inl ⟨p, hp, r, hr, hk, (hcond r).mp hc⟩)
    · exact Or.inr (Or.inr h)
  · rintro (h | ⟨p, hp, r, hr, hk, hc⟩ | h)
    · exact Or.inl h
    · exact Or.inr (Or.inl (Or.inr ⟨p, hp, r, hr, hk, (hcond r).mpr hc⟩))
    · exact Or.inr (Or.inr h)

/-! ### Last-write analysis for auto-created targets -/

theorem lastPut_append (t : String) (l₁ l₂ : List KGOp) :
    lastPut t (l₁ ++ l₂) = ((lastPut t l₂).orElse fun _ => lastPut t l₁) := by
  induction l₁ with
  | nil =>
    show lastPut t l₂ = _
    cases h : lastPut t l₂ <;> simp [h, lastPut, Option.orElse]
  | cons op ops ih =>
    show ((lastPut t (ops ++ l₂)).orElse _) = _
    rw [ih]
    show _ = ((lastPut t l₂).orElse fun _ => (lastPut t ops).orElse _)
    cases h2 : lastPut t l₂ <;> cases h1 : lastPut t ops <;> simp [Option.orElse]

/-- A defined last write comes from some upsert of that title. -/
theorem exists_put_of_lastPut_some (t : String) (ops : List KGOp) :
    ∀ w : String × String × List String, lastPut t ops = some w →
    ∃ s u c, KGOp.putNode t s u c ∈ ops := by
  induction ops with
  | nil =>
    intro w h
    exact absurd h (by simp [lastPut])
  | cons op ops ih =>
    intro w h
    rw [show lastPut t (op :: ops) = ((lastPut t ops).orElse _) from rfl] at h
    cases hl : lastPut t ops with
    | some w' =>
      rcases ih w' hl with ⟨s, u, c, hm⟩
      exact ⟨s, u, c, List.mem_cons_of_mem _ hm⟩
    | none =>
      rw [hl] at h
      simp only [Option.orElse] at h
      cases op with
      | putNode t' s u c =>
        by_cases ht : t' = t
        · subst ht
          exact ⟨s, u, c, List.mem_cons_self _ _⟩
        · have h' : (if t' = t then some (s, u, c) else none) = some w := h
          rw [if_neg ht] at h'
          exact Option.noConfusion h'
      | mergeEdge a b τ =>
        exact Option.noConfusion
          (show (none : Option (String × String × List String)) = some w from h)

/-- If every upsert of title `t` in `ops` writes value `v` and at least
one such upsert occurs, the last write is `v`. -/
theorem lastPut_const (t : String) (v : String × String × List String) (ops : List KGOp)
    (hall : ∀ s u c, KGOp.putNode t s u c ∈ ops → (s, u, c) = v)
    (hex : ∃ s u c, KGOp.putNode t s u c ∈ ops) :
    lastPut t ops = some v := by
  induction ops with
  | nil =>
    rcases hex with ⟨s, u, c, h⟩
    exact absurd h (List.not_mem_nil _)
  | cons op ops ih =>
    show ((lastPut t ops).orElse _) = _
    by_cases hex2 : ∃ s u c, KGOp.putNode t s u c ∈ ops
    · rw [ih (fun s u c h => hall s u c (List.mem_cons_of_mem op h)) hex2]
      rfl
    · have hnone : lastPut t ops = none := by
        cases hl : lastPut t ops with
        | none => rfl
        | some w => exact absurd (exists_put_of_lastPut_some t ops w hl) hex2
      rw [hnone]
      rcases hex with ⟨s, u, c, hmem⟩
      rcases List.mem_cons.mp hmem with heq | hmem2
      · have hv := hall s u c (List.mem_cons.mpr (Or.inl heq))
        rw [← heq]
        simp [Option.orElse, hv]
      · exact absurd ⟨s, u, c, hmem2⟩ hex2

theorem mem_relOps_cases (keys : List String) (title : String) (pd : PData)
    (r : String × String × String) (op : KGOp) (hop : op ∈ relOps keys title pd r) :
    op = KGOp.putNode (if r.1 ∈ keys then r.1 else title)
        pd.orig.summary pd.orig.url pd.orig.categories
    ∨ (op = KGOp.putNode r.2.1 "" "" [] ∧ r.2.1 ≠ title ∧ r.2.1 ≠ "")
    ∨ op = KGOp.mergeEdge (if r.1 ∈ keys then r.1 else title) r.2.1 (normType r.2.2) := by
  rw [relOps] at hop
  rcases List.mem_append.mp hop with hop | hop
  · rcases List.mem_append.mp hop with hop | hop
    · exact Or.inl (List.mem_singleton.mp hop)
    · by_cases h : r.2.1 ≠ title ∧ r.2.1 ≠ ""
      · rw [if_pos h, List.mem_singleton] at hop
        exact Or.inr (Or.inl ⟨hop, h⟩)
      · rw [if_neg h] at hop
        exact absurd hop (List.not_mem_nil op)
  · exact Or.inr (Or.inr (List.mem_singleton.mp hop))

/-- A relationship target that is not a key of the mapping ends up with
empty metadata: every write to it is the auto-creation write. -/
theorem viewNode_load_not_key (input : PInput) (g : KG) (t : String)
    (hnk : t ∉ pKeys input)
    (hex : ∃ p ∈ input, ∃ r ∈ p.2.rels, r.2.1 = t ∧ t ≠ "") :
    (loadProcessedData input g).viewNode t = some ("", "", []) := by
  have hall : ∀ s u c, KGOp.putNode t s u c ∈ loadOps input → (s, u, c) = ("", "", []) := by
    intro s u c hop
    rw [loadOps] at hop
    rcases List.mem_append.mp hop with hop | hop
    · rcases List.mem_append.mp hop with hop | hop
      · rcases List.mem_map.mp hop with ⟨p, hp, he⟩
        injection he.symm with e1 _ _ _
        exact absurd (e1 ▸ List.mem_map.mpr ⟨p, hp, rfl⟩) hnk
      · rcases (mem_pass2Ops _ _ _).mp hop with ⟨p, hp, hrel⟩
        rcases (mem_relsOps _ _ _ _ _).mp hrel with ⟨r, hr, hopr⟩
        rcases mem_relOps_cases _ _ _ _ _ hopr with he | ⟨he, -⟩ | he
        · injection he with e1 _ _ _
          have hsrc : (if r.1 ∈ pKeys input then r.1 else p.1) ∈ pKeys input := by
            split
            · assumption
            · exact List.mem_map.mpr ⟨p, hp, rfl⟩
          exact absurd (e1 ▸ hsrc) hnk
        · injection he with _ e2 e3 e4
          rw [e2, e3, e4]
        · exact KGOp.noConfusion he
    · rcases (mem_pass3Ops _ _ _).mp hop with ⟨p, -, hl⟩
      rcases (mem_linkOps _ _ _ _).mp hl with ⟨l, -, -, he⟩
      exact KGOp.noConfusion he
  have hexput : ∃ s u c, KGOp.putNode t s u c ∈ loadOps input := by
    rcases hex with ⟨p, hp, r, hr, ht, hne⟩
    have htne : r.2.1 ≠ p.1 := by
      rw [ht]
      intro hc
      exact hnk (hc ▸ List.mem_map.mpr ⟨p, hp, rfl⟩)
    have hm : KGOp.putNode r.2.1 "" "" [] ∈ relOps (pKeys input) p.1 p.2 r := by
      rw [relOps]
      refine List.mem_append.mpr (Or.inl (List.mem_append.mpr (Or.inr ?_)))
      rw [if_pos ⟨htne, ht ▸ hne⟩]
      exact List.mem_singleton.mpr rfl
    refine ⟨"", "", [], ?_⟩
    rw [← ht, loadOps]
    refine List.mem_append.mpr (Or.inl (List.mem_append.mpr (Or.inr ?_)))
    exact (mem_pass2Ops _ _ _).mpr ⟨p, hp, (mem_relsOps _ _ _ _ _).mpr ⟨r, hr, hm⟩⟩
  rw [loadProcessedData_eq_applyOps, viewNode_applyOps,
    lastPut_const t ("", "", []) (loadOps input) hall hexput]
  rfl

/-! ## Query result shapes (§6 of the behaviour: the uniform graph JSON)

A node is exported as `{id, label, summary, url, categories}`; an edge as
`{source, target, relationship_type, properties}`.  The loader passes no
custom properties, so the properties mapping is dropped from the model. -/

structure ExpNode where
  id : String
  label : String
  summary : String
  url : String
  categories : List String
  deriving Repr, DecidableEq

structure ExpEdge where
  source : String
  target : String
  relType : String
  deriving Repr, DecidableEq

structure QueryResult where
  nodes : List ExpNode
  edges : List ExpEdge
  deriving Repr, DecidableEq

/-- `export_graph_data`: every node, every relationship. -/
def exportGraphData (g : KG) : QueryResult :=
  { nodes := g.nodes.map fun p => ⟨p.1, p.1, p.2.summary, p.2.url, p.2.categories⟩
    edges := g.edges.map fun e => ⟨e.source, e.target, e.rtype⟩ }

/-- The edge sanitization of the `/api/graph` and `/api/subgraph` routes:
drop edges whose source or target is not among the returned node ids. -/
def sanitize (d : QueryResult) : QueryResult :=
  let ids := d.nodes.map ExpNode.id
  { nodes := d.nodes
    edges := d.edges.filter fun e => decide (e.source ∈ ids ∧ e.target ∈ ids) }

/-- `/api/graph`, persistent branch: full export followed by sanitization. -/
def apiGraphP (g : KG) : QueryResult := sanitize (exportGraphData g)

/-! ## The persistent traversal queries

`export_subgraph` and `shortest_path` issue Cypher over the store.  The
variable-length pattern `(root)-[r:T1|…|Tn*1..d]-(n)` matches `n` exactly
when some undirected path of length `1..d` over relationships of the
allowed types joins `root` to `n`; bounded reachability (`ball`) is its
model. -/

/-- The built-in relationship-type union used by both traversal queries. -/
def defaultRelTypes : List String :=
  ["LINKS_TO", "GENERALIZES", "SPECIALIZES", "USES",
   "RELATED_TO", "IMPLIES", "PROVEN_BY", "RELATES_TO"]

/-- `rel_types or [...]`: `None` and the empty list are falsy in Python,
so both select the built-in union. -/
def allowedOf (relTypes : Option (List String)) : List String :=
  match relTypes with
  | none => defaultRelTypes
  | some l => if l = [] then defaultRelTypes else l

/-- Undirected neighbours of `t` over relationships of allowed types. -/
def pNbrs (g : KG) (allowed : List String) (t : String) : List String :=
  (g.edges.filterMap fun e =>
      if e.rtype ∈ allowed ∧ e.source = t then some e.target else none)
    ++ (g.edges.filterMap fun e =>
      if e.rtype ∈ allowed ∧ e.target = t then some e.source else none)

/-- `max(lo, min(x, hi))` of a Python int, as the natural number used as
a traversal bound. -/
def clampNat (lo hi : Nat) (x : Int) : Nat := (max (lo : Int) (min x hi)).toNat

/-- One widening step of bounded reachability. -/
def ballStep (adj : String → List String) (s : List String) : List String :=
  (s ++ s.flatMap adj).dedup

/-- All titles joined to `root` by some undirected walk of length at most
`d` (the node set matched by the variable-length pattern, root included). -/
def ball (adj : String → List String) (root : String) : Nat → List String
  | 0 => [root]
  | d + 1 => ballStep adj (ball adj root d)

/-- Walks of a given length in the undirected adjacency. -/
inductive WalkN (adj : String → List String) : String → String → Nat → Prop where
  | refl (a : String) : WalkN adj a a 0
  | step {a b c : String} {k : Nat} :
      b ∈ adj a → WalkN adj b c k → WalkN adj a c (k + 1)

/-- `export_subgraph`'s depth clamp: `depth = max(1, min(int(depth), 5))`. -/
def pSubDepth (depth : Int) : Nat := clampNat 1 5 depth

/-- `export_subgraph` (persistent).  The Cypher query first matches the
root (no row when the title is absent: `result.single()` is `None` and
the function returns the empty result).  The subquery collects `ns` and
`rs` over the variable-length pattern `(root)-[r:T*1..d]-(n:Concept)`;
with `d ≥ 1` after the clamp, a matching row exists exactly when the root
has an incident relationship of an allowed type, i.e. `pNbrs ≠ []`.  When
no row matches, `rels` is the empty list and `UNWIND rels AS r`
eliminates every row, so the grouped final `RETURN` emits no row,
`result.single()` is `None`, and the function again returns the empty
result — `[root] + ns` notwithstanding, the root is lost.  When a row
does match, `r` is bound to a *list* of relationships (a variable-length
binding), so `startNode(r)` is a Cypher type error: the call raises
(`Except.error`), and the web route falls back to the offline BFS. -/
def pExportSubgraph (g : KG) (root : String) (depth : Int)
    (relTypes : Option (List String)) : Except Unit QueryResult :=
  let d := pSubDepth depth
  if root ∈ g.titles then
    if 1 ≤ d ∧ pNbrs g (allowedOf relTypes) root ≠ [] then Except.error ()
    else Except.ok ⟨[], []⟩
  else Except.ok ⟨[], []⟩

/-- `/api/subgraph`, persistent branch: when `export_subgraph` returns,
the route sanitizes its edges and serves it; when it raises, no
persistent response exists (the route falls back to the offline branch,
modelled by `apiSubgraphServed`), rendered here as the empty result. -/
def apiSubgraphP (g : KG) (root : String) (depth : Int) : QueryResult :=
  match pExportSubgraph g root depth none with
  | Except.ok d => sanitize d
  | Except.error _ => ⟨[], []⟩

/-- `shortest_path`'s depth clamp: `max_depth = max(1, min(int(max_depth), 8))`. -/
def pPathDepth (maxDepth : Int) : Nat := clampNat 1 8 maxDepth

/-- Consecutive membership of a title list in the undirected typed
adjacency: the list is a chain in the store. -/
def isChain (adj : String → List String) : List String → Prop
  | [] => True
  | [_] => True
  | a :: b :: rest => b ∈ adj a ∧ isChain adj (b :: rest)

instance (adj : String → List String) : ∀ p, Decidable (isChain adj p)
  | [] => .isTrue trivial
  | [_] => .isTrue trivial
  | _ :: b :: rest =>
      have : Decidable (isChain adj (b :: rest)) := instDecidableIsChain adj (b :: rest)
      instDecidableAnd

/-- The paths the Cypher `shortestPath((a)-[:T*..k]-(b))` can return for
the clamped bound `k`: a chain over the default types from `a` to `b`, of
length at most `k`, both endpoints matched in the store, and of minimal
length (no strictly shorter walk joins the endpoints). -/
def pShortestPathWitness (g : KG) (s t : String) (maxDepth : Int)
    (p : List String) : Prop :=
  s ∈ g.titles ∧ t ∈ g.titles ∧
    p.head? = some s ∧ p.getLast? = some t ∧
    (∀ x ∈ p, x ∈ g.titles) ∧
    isChain (pNbrs g defaultRelTypes) p ∧
    p.length - 1 ≤ pPathDepth maxDepth ∧
    ∀ j ∈ List.range (p.length - 1), t ∉ ball (pNbrs g defaultRelTypes) s j

instance (g : KG) (s t : String) (maxDepth : Int) (p : List String) :
    Decidable (pShortestPathWitness g s t maxDepth p) := by
  unfold pShortestPathWitness
  infer_instance

/-- Python-style first-occurrence deduplication (`seen`-set filtering). -/
def pydedupAux (seen : List String) : List String → List String
  | [] => []
  | x :: xs => if x ∈ seen then pydedupAux seen xs else x :: pydedupAux (x :: seen) xs

def pydedup (l : List String) : List String := pydedupAux [] l

/-- The consecutive pairs of a list (path edges). -/
def consecPairs : List String → List (String × String)
  | a :: b :: rest => (a, b) :: consecPairs (b :: rest)
  | _ => []

/-- The relationship type reported for a path edge: the type of a matching
store relationship of an allowed type. -/
def edgeTypeOf (g : KG) (q : String × String) : String :=
  ((g.edges.find? fun e => decide (((e.source = q.1 ∧ e.target = q.2) ∨
      (e.source = q.2 ∧ e.target = q.1)) ∧ e.rtype ∈ defaultRelTypes)).map
    EdgeRec.rtype).getD "RELATES_TO"

/-- The record `shortest_path` builds from the matched path: nodes in path
order, deduplicated, empty titles dropped; one edge per hop.  The route
`/api/path` returns this record without sanitization. -/
def pShortestPathResult (g : KG) (p : List String) : QueryResult :=
  { nodes := (pydedup (p.filter fun t => !(t == ""))).filterMap fun t =>
      (assocFind g.nodes t).map fun nd => ⟨t, t, nd.summary, nd.url, nd.categories⟩
    edges := (consecPairs p).map fun q => ⟨q.1, q.2, edgeTypeOf g q⟩ }

/-! ## The offline fallback backend (`app.build_offline_graph` and the
BFS fallbacks of `get_subgraph` / `get_path`)

The processed-concepts branch is built: nodes from the mapping's entries,
edges from relationship triples whose endpoints are both known, plus a
`LINKS_TO` edge per link to a known title, and the undirected adjacency
sets of those edges. -/

/-- ASCII upper-casing of a whole string (`str.upper`). -/
def pyUpper (s : String) : String := String.mk (s.data.map Char.toUpper)

/-- ASCII lower-casing of a whole string (`str.lower`). -/
def pyLower (s : String) : String := String.mk (s.data.map Char.toLower)

/-- The offline node records (`nodes` / `node_map` of `build_offline_graph`). -/
def offNodes (input : PInput) : List ExpNode :=
  input.map fun p => ⟨p.1, p.1, p.2.orig.summary, p.2.orig.url, p.2.orig.categories⟩

/-- Lookup in `node_map`. -/
def offNode? (input : PInput) (t : String) : Option ExpNode :=
  (offNodes input).find? fun n => n.id == t

/-- The undirected adjacency pairs: one per relationship triple with both
endpoints known, one per link to a known title (in that order, per entry). -/
def offEdgePairs (input : PInput) : List (String × String) :=
  (input.flatMap fun p => p.2.rels.filterMap fun r =>
      if r.1 ∈ pKeys input ∧ r.2.1 ∈ pKeys input then some (r.1, r.2.1) else none)
    ++ (input.flatMap fun p => p.2.orig.links.filterMap fun l =>
      if l ∈ pKeys input then some (p.1, l) else none)

/-- The offline full-graph edge list (relationship type: the raw type
upper-cased for triples, `LINKS_TO` for links). -/
def offEdges (input : PInput) : List ExpEdge :=
  (input.flatMap fun p => p.2.rels.filterMap fun r =>
      if r.1 ∈ pKeys input ∧ r.2.1 ∈ pKeys input then
        some ⟨r.1, r.2.1, pyUpper r.2.2⟩ else none)
    ++ (input.flatMap fun p => p.2.orig.links.filterMap fun l =>
      if l ∈ pKeys input then some ⟨p.1, l, "LINKS_TO"⟩ else none)

/-- `adj[t]`: the set of undirected neighbours of `t`. -/
def offAdj (input : PInput) (t : String) : List String :=
  pydedup ((offEdgePairs input).filterMap fun q =>
    if q.1 = t then some q.2 else if q.2 = t then some q.1 else none)

/-- `/api/graph`, offline branch: the offline nodes and edges as built. -/
def apiGraphOff (input : PInput) : QueryResult := ⟨offNodes input, offEdges input⟩

/-! ### The offline subgraph BFS -/

/-- The inner neighbour loop of the offline subgraph BFS: unseen
neighbours are marked seen and enqueued at depth `d+1`; an edge
`(cur, nb)` is recorded for every neighbour. -/
def obfsExpand (cur : String) (d : Nat) :
    List String → List String → List (String × Nat) → List (String × String) →
    List String × List (String × Nat) × List (String × String)
  | [], seen, queue, edges => (seen, queue, edges)
  | nb :: rest, seen, queue, edges =>
      if nb ∈ seen then
        obfsExpand cur d rest seen queue (edges ++ [(cur, nb)])
      else
        obfsExpand cur d rest (seen ++ [nb]) (queue ++ [(nb, d + 1)]) (edges ++ [(cur, nb)])

/-- The offline subgraph BFS loop.  `fuel` bounds the number of dequeues;
the run is started with more fuel than nodes, so the queue always drains.
The dequeue depth is recorded next to each visited title; the returned
node list drops it. -/
def obfs (adj : String → List String) (maxD : Nat) :
    Nat → List (String × Nat) → List String → List (String × Nat) →
    List (String × String) →
    List (String × Nat) × List (String × String) × List String × Bool
  | _, [], seen, accN, accE => (accN, accE, seen, true)
  | 0, _ :: _, seen, accN, accE => (accN, accE, seen, false)
  | fuel + 1, (cur, d) :: rest, seen, accN, accE =>
      if d = maxD then obfs adj maxD fuel rest seen (accN ++ [(cur, d)]) accE
      else
        let r := obfsExpand cur d (adj cur) seen rest accE
        obfs adj maxD fuel r.2.1 r.1 (accN ++ [(cur, d)]) r.2.2

/-- Unordered-pair edge deduplication (`tuple(sorted([a, b]))` keys,
first edge wins). -/
def pairKey (q : String × String) : String × String :=
  if q.1 ≤ q.2 then q else (q.2, q.1)

def uniqPairsAux (seen : List (String × String)) :
    List (String × String) → List (String × String)
  | [] => []
  | q :: rest =>
      if pairKey q ∈ seen then uniqPairsAux seen rest
      else q :: uniqPairsAux (pairKey q :: seen) rest

def uniqPairs (l : List (String × String)) : List (String × String) := uniqPairsAux [] l

/-- The offline subgraph BFS for a root known to be in `node_map`. -/
def offSubgraphRun (input : PInput) (root : String) (depth : Int) : QueryResult :=
  let maxD := clampNat 1 5 depth
  let r := obfs (offAdj input) maxD (input.length + 1) [(root, 0)] [root] [] []
  { nodes := r.1.filterMap fun q => offNode? input q.1
    edges := (uniqPairs r.2.1).map fun q => ⟨q.1, q.2, "RELATED"⟩ }

/-- `/api/subgraph`, offline branch: exact root lookup, then a
case-insensitive scan of the known titles, then 404 (`none`). -/
def offSubgraphRoute (input : PInput) (root : String) (depth : Int) :
    Option QueryResult :=
  if root ∈ pKeys input then some (offSubgraphRun input root depth)
  else
    match (pKeys input).find? (fun k => pyLower k == pyLower root) with
    | none => none
    | some k => some (offSubgraphRun input k depth)

/-- `/api/subgraph`, the whole route: try the persistent backend inside
`try:` — a normal return is sanitized and served — and fall back to the
offline branch (exact key, case-insensitive scan, 404) when the query
raises. -/
def apiSubgraphServed (g : KG) (input : PInput) (root : String) (depth : Int) :
    Option QueryResult :=
  match pExportSubgraph g root depth none with
  | Except.ok d => some (sanitize d)
  | Except.error _ => offSubgraphRoute input root depth

/-! ### The offline shortest-path BFS -/

/-- The inner neighbour loop of the path BFS: an unreached neighbour gets
a predecessor and a depth; reaching the target sets `found` and breaks
(the queue is cleared by the caller). -/
def opathExpand (cur : String) (dcur : Nat) (target : String) :
    List String → List (String × Option String) → List (String × Nat) →
    List String →
    Bool × List (String × Option String) × List (String × Nat) × List String
  | [], prev, depths, adds => (false, prev, depths, adds)
  | nb :: rest, prev, depths, adds =>
      if nb ∈ prev.map Prod.fst then
        opathExpand cur dcur target rest prev depths adds
      else
        let prev' := prev ++ [(nb, some cur)]
        let depths' := depths ++ [(nb, dcur + 1)]
        if nb = target then (true, prev', depths', adds)
        else opathExpand cur dcur target rest prev' depths' (adds ++ [nb])

/-- Depth lookup (`depth_map[cur]`; every queued title has one). -/
def depthOf (depths : List (String × Nat)) (t : String) : Nat :=
  ((depths.find? fun q => q.1 == t).map Prod.snd).getD 0

/-- The offline path BFS loop: returns whether the target was found and
the predecessor mapping. -/
def opath (adj : String → List String) (target : String) (maxD : Nat) :
    Nat → List String → List (String × Option String) → List (String × Nat) →
    Bool × List (String × Option String)
  | _, [], prev, _ => (false, prev)
  | 0, _ :: _, prev, _ => (false, prev)
  | fuel + 1, cur :: rest, prev, depths =>
      if maxD ≤ depthOf depths cur then opath adj target maxD fuel rest prev depths
      else
        let r := opathExpand cur (depthOf depths cur) target (adj cur) prev depths []
        if r.1 then (true, r.2.1)
        else opath adj target maxD fuel (rest ++ r.2.2.2) r.2.1 r.2.2.1

/-- Path reconstruction: follow predecessors from the target (the result
is reversed by the caller). -/
def walkPrev (prev : List (String × Option String)) : Nat → String → List String
  | 0, _ => []
  | fuel + 1, cur =>
      cur :: (match prev.find? fun q => q.1 == cur with
        | some (_, some parent) => walkPrev prev fuel parent
        | _ => [])

/-- `/api/path`, offline branch.  Exact-key check on both endpoints (no
case-insensitive fallback), clamp to `[1, 10]`, BFS, and reconstruction;
empty node/edge sets when either endpoint is unknown or the target is not
reached. -/
def offPathRun (input : PInput) (source target : String) (maxDepth : Int) :
    QueryResult :=
  if source ∈ pKeys input ∧ target ∈ pKeys input then
    let maxD := clampNat 1 10 maxDepth
    let r := opath (offAdj input) target maxD (input.length + 2)
      [source] [(source, none)] [(source, 0)]
    if r.1 then
      let path := (walkPrev r.2 (input.length + 2) target).reverse
      { nodes := path.filterMap (offNode? input)
        edges := (consecPairs path).map fun q => ⟨q.1, q.2, "RELATED"⟩ }
    else ⟨[], []⟩
  else ⟨[], []⟩

/-! ## Reachability facts: `ball` is the set of walk-reachable titles -/

theorem mem_ballStep_iff (adj : String → List String) (s : List String) (x : String) :
    x ∈ ballStep adj s ↔ x ∈ s ∨ ∃ w ∈ s, x ∈ adj w := by
  simp [ballStep, List.mem_dedup, List.mem_append, List.mem_flatMap]

theorem mem_ball_mono (adj : String → List String) (root : String) (d : Nat)
    (x : String) (h : x ∈ ball adj root d) : x ∈ ball adj root (d + 1) := by
  rw [ball, mem_ballStep_iff]
  exact Or.inl h

theorem root_mem_ball (adj : String → List String) (root : String) (d : Nat) :
    root ∈ ball adj root d := by
  induction d with
  | zero => exact List.mem_singleton.mpr rfl
  | succ d ih => exact mem_ball_mono adj root d root ih

theorem ball_succ_of_adj (adj : String → List String) (root : String) (d : Nat)
    (w x : String) (hw : w ∈ ball adj root d) (hx : x ∈ adj w) :
    x ∈ ball adj root (d + 1) := by
  rw [ball, mem_ballStep_iff]
  exact Or.inr ⟨w, hw, hx⟩

theorem walkN_zero {adj : String → List String} {a b : String}
    (h : WalkN adj a b 0) : a = b := by
  cases h
  rfl

theorem walkN_snoc {adj : String → List String} {a b c : String} {k : Nat}
    (h : WalkN adj a b k) (hc : c ∈ adj b) : WalkN adj a c (k + 1) := by
  induction h with
  | refl a => exact WalkN.step hc (WalkN.refl c)
  | step hb _ ih => exact WalkN.step hb (ih hc)

theorem walkN_succ_last {adj : String → List String} {a c : String} :
    ∀ {j : Nat}, WalkN adj a c (j + 1) → ∃ b, WalkN adj a b j ∧ c ∈ adj b := by
  intro j
  induction j generalizing a with
  | zero =>
    intro h
    cases h with
    | step hb hw => exact ⟨a, WalkN.refl a, walkN_zero hw ▸ hb⟩
  | succ j ih =>
    intro h
    cases h with
    | step hb hw =>
      rcases ih hw with ⟨m, hm, hcm⟩
      exact ⟨m, WalkN.step hb hm, hcm⟩

theorem mem_ball_iff (adj : String → List String) (root : String) :
    ∀ (d : Nat) (x : String),
    x ∈ ball adj root d ↔ ∃ k ≤ d, WalkN adj root x k := by
  intro d
  induction d with
  | zero =>
    intro x
    constructor
    · intro h
      have e : x = root := List.mem_singleton.mp h
      subst e
      exact ⟨0, Nat.le_refl 0, WalkN.refl x⟩
    · rintro ⟨k, hk, hw⟩
      rw [Nat.le_zero.mp hk] at hw
      exact List.mem_singleton.mpr (walkN_zero hw).symm
  | succ d ih =>
    intro x
    rw [ball, mem_ballStep_iff]
    constructor
    · rintro (h | ⟨w, hw, hx⟩)
      · rcases (ih x).mp h with ⟨k, hk, hwalk⟩
        exact ⟨k, Nat.le_succ_of_le hk, hwalk⟩
      · rcases (ih w).mp hw with ⟨k, hk, hwalk⟩
        exact ⟨k + 1, Nat.succ_le_succ hk, walkN_snoc hwalk hx⟩
    · rintro ⟨k, hk, hwalk⟩
      rcases Nat.lt_or_ge k (d + 1) with hlt | hge
      · exact Or.inl ((ih x).mpr ⟨k, Nat.lt_succ_iff.mp hlt, hwalk⟩)
      · have : k = d + 1 := Nat.le_antisymm hk hge
        subst this
        rcases walkN_succ_last hwalk with ⟨b, hb, hxb⟩
        exact Or.inr ⟨b, (ih b).mpr ⟨d, Nat.le_refl d, hb⟩, hxb⟩

/-! ### Facts about the BFS neighbour expansion -/

theorem obfsExpand_mem_seen (cur : String) (d : Nat) :
    ∀ (nbs seen : List String) (queue : List (String × Nat))
      (edges : List (String × String)) (x : String),
    x ∈ (obfsExpand cur d nbs seen queue edges).1 ↔ x ∈ seen ∨ x ∈ nbs := by
  intro nbs
  induction nbs with
  | nil =>
    intro seen queue edges x
    simp [obfsExpand]
  | cons nb rest ih =>
    intro seen queue edges x
    rw [obfsExpand]
    by_cases h : nb ∈ seen
    · rw [if_pos h, ih]
      constructor
      · rintro (hx | hx)
        · exact Or.inl hx
        · exact Or.inr (List.mem_cons_of_mem nb hx)
      · rintro (hx | hx)
        · exact Or.inl hx
        · rcases List.mem_cons.mp hx with rfl | hx
          · exact Or.inl h
          · exact Or.inr hx
    · rw [if_neg h, ih]
      simp only [List.mem_append, List.mem_singleton, List.mem_cons]
      tauto

theorem obfsExpand_nodup (cur : String) (d : Nat) :
    ∀ (nbs seen : List String) (queue : List (String × Nat))
      (edges : List (String × String)),
    seen.Nodup → (obfsExpand cur d nbs seen queue edges).1.Nodup := by
  intro nbs
  induction nbs with
  | nil =>
    intro seen queue edges h
    exact h
  | cons nb rest ih =>
    intro seen queue edges h
    rw [obfsExpand]
    by_cases hm : nb ∈ seen
    · rw [if_pos hm]
      exact ih _ _ _ h
    · rw [if_neg hm]
      refine ih _ _ _ ?_
      rw [List.nodup_append]
      exact ⟨h, List.nodup_singleton nb, by simpa using fun hx => hm hx⟩

theorem obfsExpand_queue_struct (cur : String) (d : Nat) :
    ∀ (nbs seen : List String) (queue : List (String × Nat))
      (edges : List (String × String)),
    ∃ adds, (obfsExpand cur d nbs seen queue edges).2.1 = queue ++ adds ∧
      ∀ q ∈ adds, q.2 = d + 1 ∧ q.1 ∈ nbs ∧ q.1 ∉ seen ∧
        q.1 ∈ (obfsExpand cur d nbs seen queue edges).1 := by
  intro nbs
  induction nbs with
  | nil =>
    intro seen queue edges
    exact ⟨[], by simp [obfsExpand]⟩
  | cons nb rest ih =>
    intro seen queue edges
    rw [obfsExpand]
    by_cases hm : nb ∈ seen
    · rw [if_pos hm]
      rcases ih seen queue (edges ++ [(cur, nb)]) with ⟨adds, he, hall⟩
      exact ⟨adds, he, fun q hq =>
        ⟨(hall q hq).1, List.mem_cons_of_mem nb (hall q hq).2.1,
          (hall q hq).2.2.1, (hall q hq).2.2.2⟩⟩
    · rw [if_neg hm]
      rcases ih (seen ++ [nb]) (queue ++ [(nb, d + 1)]) (edges ++ [(cur, nb)]) with
        ⟨adds, he, hall⟩
      refine ⟨(nb, d + 1) :: adds, by simp [he], ?_⟩
      intro q hq
      rcases List.mem_cons.mp hq with rfl | hq
      · refine ⟨rfl, List.mem_cons_self nb rest, hm, ?_⟩
        rw [obfsExpand_mem_seen]
        exact Or.inl (List.mem_append.mpr (Or.inr (List.mem_singleton.mpr rfl)))
      · refine ⟨(hall q hq).1, List.mem_cons_of_mem nb (hall q hq).2.1, ?_, (hall q hq).2.2.2⟩
        intro hmem
        exact (hall q hq).2.2.1 (List.mem_append.mpr (Or.inl hmem))

theorem obfsExpand_mem_queue (cur : String) (d : Nat) :
    ∀ (nbs seen : List String) (queue : List (String × Nat))
      (edges : List (String × String)) (q : String × Nat),
    q ∈ (obfsExpand cur d nbs seen queue edges).2.1 ↔
      q ∈ queue ∨ (q.2 = d + 1 ∧ q.1 ∈ nbs ∧ q.1 ∉ seen) := by
  intro nbs
  induction nbs with
  | nil =>
    intro seen queue edges q
    simp [obfsExpand]
  | cons nb rest ih =>
    intro seen queue edges q
    rw [obfsExpand]
    by_cases h : nb ∈ seen
    · rw [if_pos h, ih]
      constructor
      · rintro (hq | ⟨h1, h2, h3⟩)
        · exact Or.inl hq
        · exact Or.inr ⟨h1, List.mem_cons_of_mem nb h2, h3⟩
      · rintro (hq | ⟨h1, h2, h3⟩)
        · exact Or.inl hq
        · rcases List.mem_cons.mp h2 with rfl | h2
          · exact absurd h h3
          · exact Or.inr ⟨h1, h2, h3⟩
    · rw [if_neg h, ih]
      constructor
      · rintro (hq | ⟨h1, h2, h3⟩)
        · rcases List.mem_append.mp hq with hq | hq
          · exact Or.inl hq
          · rcases List.mem_singleton.mp hq with rfl
            exact Or.inr ⟨rfl, List.mem_cons_self nb rest, h⟩
        · refine Or.inr ⟨h1, List.mem_cons_of_mem nb h2, fun hc => h3 ?_⟩
          exact List.mem_append.mpr (Or.inl hc)
      · rintro (hq | ⟨h1, h2, h3⟩)
        · exact Or.inl (List.mem_append.mpr (Or.inl hq))
        · rcases List.mem_cons.mp h2 with heq | h2
          · refine Or.inl (List.mem_append.mpr (Or.inr ?_))
            rw [List.mem_singleton]
            cases q with
            | mk q1 q2 =>
              simp only at h1 heq
              rw [h1, heq]
          · by_cases hnb : q.1 = nb
            · refine Or.inl (List.mem_append.mpr (Or.inr ?_))
              rw [List.mem_singleton]
              cases q with
              | mk q1 q2 =>
                simp only at h1 hnb
                rw [h1, hnb]
            · refine Or.inr ⟨h1, h2, fun hc => ?_⟩
              rcases List.mem_append.mp hc with hc | hc
              · exact h3 hc
              · exact hnb (List.mem_singleton.mp hc)

theorem obfsExpand_mem_edges (cur : String) (d : Nat) :
    ∀ (nbs seen : List String) (queue : List (String × Nat))
      (edges : List (String × String)) (e : String × String),
    e ∈ (obfsExpand cur d nbs seen queue edges).2.2 ↔
      e ∈ edges ∨ (e.1 = cur ∧ e.2 ∈ nbs) := by
  intro nbs
  induction nbs with
  | nil =>
    intro seen queue edges e
    simp [obfsExpand]
  | cons nb rest ih =>
    intro seen queue edges e
    rw [obfsExpand]
    have key : ∀ (seen' : List String) (queue' : List (String × Nat)),
        e ∈ (obfsExpand cur d rest seen' queue' (edges ++ [(cur, nb)])).2.2 ↔
          e ∈ edges ∨ (e.1 = cur ∧ e.2 ∈ nb :: rest) := by
      intro seen' queue'
      rw [ih]
      constructor
      · rintro (he | ⟨h1, h2⟩)
        · rcases List.mem_append.mp he with he | he
          · exact Or.inl he
          · have heq : e = (cur, nb) := List.mem_singleton.mp he
            subst heq
            exact Or.inr ⟨rfl, List.mem_cons_self nb rest⟩
        · exact Or.inr ⟨h1, List.mem_cons_of_mem nb h2⟩
      · rintro (he | ⟨h1, h2⟩)
        · exact Or.inl (List.mem_append.mpr (Or.inl he))
        · rcases List.mem_cons.mp h2 with heq | h2
          · refine Or.inl (List.mem_append.mpr (Or.inr (List.mem_singleton.mpr ?_)))
            cases e with
            | mk a b =>
              simp only at h1 heq
              rw [h1, heq]
          · exact Or.inr ⟨h1, h2⟩
    by_cases h : nb ∈ seen
    · rw [if_pos h]
      exact key seen queue
    · rw [if_neg h]
      exact key (seen ++ [nb]) (queue ++ [(nb, d + 1)])

theorem obfsExpand_lengths (cur : String) (d : Nat) :
    ∀ (nbs seen : List String) (queue : List (String × Nat))
      (edges : List (String × String)),
    (obfsExpand cur d nbs seen queue edges).1.length + queue.length =
      (obfsExpand cur d nbs seen queue edges).2.1.length + seen.length := by
  intro nbs
  induction nbs with
  | nil =>
    intro seen queue edges
    show seen.length + queue.length = queue.length + seen.length
    omega
  | cons nb rest ih =>
    intro seen queue edges
    rw [obfsExpand]
    by_cases h : nb ∈ seen
    · rw [if_pos h]
      exact ih seen queue _
    · rw [if_neg h]
      have := ih (seen ++ [nb]) (queue ++ [(nb, d + 1)]) (edges ++ [(cur, nb)])
      simp only [List.length_append, List.length_singleton] at this ⊢
      omega

/-- Walks transfer between extensionally equal adjacencies. -/
theorem walkN_congr {adj₁ adj₂ : String → List String}
    (h : ∀ t x, x ∈ adj₁ t ↔ x ∈ adj₂ t) {a b : String} {k : Nat}
    (hw : WalkN adj₁ a b k) : WalkN adj₂ a b k := by
  induction hw with
  | refl a => exact WalkN.refl a
  | step hb _ ih => exact WalkN.step ((h _ _).mp hb) ih

/-- Bounded reachability only depends on the membership of the adjacency. -/
theorem mem_ball_congr {adj₁ adj₂ : String → List String}
    (h : ∀ t x, x ∈ adj₁ t ↔ x ∈ adj₂ t) (root : String) (d : Nat) (x : String) :
    x ∈ ball adj₁ root d ↔ x ∈ ball adj₂ root d := by
  rw [mem_ball_iff, mem_ball_iff]
  constructor
  · rintro ⟨k, hk, hw⟩
    exact ⟨k, hk, walkN_congr h hw⟩
  · rintro ⟨k, hk, hw⟩
    exact ⟨k, hk, walkN_congr (fun t x => (h t x).symm) hw⟩

/-! ### The BFS loop invariant and its preservation

The queue is two-levelled (depths nondecreasing, spanning at most two
consecutive values), every queued or visited title is reachable within
its recorded depth, every seen title is queued or visited, visited depths
never exceed queued depths, and every visited title below the cutoff has
all its neighbours recorded at depth at most one more. -/

structure BfsInv (adj : String → List String) (maxD : Nat) (root : String)
    (queue : List (String × Nat)) (seen : List String)
    (accN : List (String × Nat)) : Prop where
  seen_nodup : seen.Nodup
  queue_sub_seen : ∀ q ∈ queue, q.1 ∈ seen
  seen_covered : ∀ x ∈ seen, (∃ d, (x, d) ∈ queue) ∨ (∃ d, (x, d) ∈ accN)
  sound_queue : ∀ q ∈ queue, q.2 ≤ maxD ∧ q.1 ∈ ball adj root q.2
  sound_acc : ∀ q ∈ accN, q.2 ≤ maxD ∧ q.1 ∈ ball adj root q.2
  acc_sub_seen : ∀ q ∈ accN, q.1 ∈ seen
  two_level : queue.Pairwise fun a b => a.2 ≤ b.2 ∧ b.2 ≤ a.2 + 1
  acc_le_queue : ∀ a ∈ accN, ∀ q ∈ queue, a.2 ≤ q.2
  acc_expanded : ∀ a ∈ accN, a.2 < maxD → ∀ nb ∈ adj a.1,
      ∃ dn, ((nb, dn) ∈ queue ∨ (nb, dn) ∈ accN) ∧ dn ≤ a.2 + 1

/-- The BFS run: with enough fuel the queue drains, the invariant carries
to the final state, seen titles only grow, every queued or visited entry
ends up visited, and every recorded edge has its source visited and its
target seen. -/
theorem obfs_run (adj : String → List String) (maxD : Nat) (root : String)
    (univ : List String) (hadj : ∀ t : String, ∀ n ∈ adj t, n ∈ univ) :
    ∀ (fuel : Nat) (queue : List (String × Nat)) (seen : List String)
      (accN : List (String × Nat)) (accE : List (String × String))
      (accN' : List (String × Nat)) (accE' : List (String × String))
      (seen' : List String) (ok : Bool),
    obfs adj maxD fuel queue seen accN accE = (accN', accE', seen', ok) →
    BfsInv adj maxD root queue seen accN →
    (∀ x ∈ seen, x ∈ univ) →
    queue.length + (univ.length - seen.length) < fuel →
    ok = true ∧
    BfsInv adj maxD root [] seen' accN' ∧
    (∀ x ∈ seen, x ∈ seen') ∧
    (∀ q : String × Nat, (q ∈ queue ∨ q ∈ accN) → q ∈ accN') ∧
    (∀ e ∈ accE', e ∈ accE ∨ ((∃ dd, (e.1, dd) ∈ accN') ∧ e.2 ∈ seen')) := by
  intro fuel
  induction fuel with
  | zero =>
    intro queue seen accN accE accN' accE' seen' ok heq hinv huniv hfuel
    exact absurd hfuel (Nat.not_lt_zero _)
  | succ fuel ih =>
    intro queue seen accN accE accN' accE' seen' ok heq hinv huniv hfuel
    cases queue with
    | nil =>
      have hpack : ((accN, accE, seen, true) : _ × _ × _ × Bool)
          = (accN', accE', seen', ok) := heq
      injection hpack with e1 hpack
      injection hpack with e2 hpack
      injection hpack with e3 e4
      subst e1
      subst e2
      subst e3
      subst e4
      refine ⟨rfl, hinv, fun x hx => hx, ?_, fun e he => Or.inl he⟩
      rintro q (hq | hq)
      · exact absurd hq (List.not_mem_nil q)
      · exact hq
    | cons hd rest =>
      obtain ⟨cur, d⟩ := hd
      simp only [obfs] at heq
      have hhead : (cur, d) ∈ (cur, d) :: rest := List.mem_cons_self _ _
      by_cases hmax : d = maxD
      · rw [if_pos hmax] at heq
        subst hmax
        have hrest_pw := (List.pairwise_cons.mp hinv.two_level).2
        have hhead_rel := (List.pairwise_cons.mp hinv.two_level).1
        have hinv2 : BfsInv adj d root rest seen (accN ++ [(cur, d)]) := by
          refine ⟨hinv.seen_nodup,
            fun q hq => hinv.queue_sub_seen q (List.mem_cons_of_mem _ hq),
            ?_,
            fun q hq => hinv.sound_queue q (List.mem_cons_of_mem _ hq),
            ?_,
            ?_,
            hrest_pw,
            ?_,
            ?_⟩
          · intro x hx
            rcases hinv.seen_covered x hx with ⟨dw, hw⟩ | ⟨dw, hw⟩
            · rcases List.mem_cons.mp hw with heqw | hw
              · refine Or.inr ⟨d, List.mem_append.mpr (Or.inr ?_)⟩
                rw [List.mem_singleton]
                injection heqw with a b
                rw [a]
              · exact Or.inl ⟨dw, hw⟩
            · exact Or.inr ⟨dw, List.mem_append.mpr (Or.inl hw)⟩
          · intro q hq
            rcases List.mem_append.mp hq with hq | hq
            · exact hinv.sound_acc q hq
            · rw [List.mem_singleton.mp hq]
              exact hinv.sound_queue _ hhead
          · intro q hq
            rcases List.mem_append.mp hq with hq | hq
            · exact hinv.acc_sub_seen q hq
            · rw [List.mem_singleton.mp hq]
              exact hinv.queue_sub_seen _ hhead
          · intro a ha q hq
            rcases List.mem_append.mp ha with ha | ha
            · exact hinv.acc_le_queue a ha q (List.mem_cons_of_mem _ hq)
            · rw [List.mem_singleton.mp ha]
              exact (hhead_rel q hq).1
          · intro a ha halt nb hnb
            rcases List.mem_append.mp ha with ha | ha
            · rcases hinv.acc_expanded a ha halt nb hnb with ⟨dn, hdn, hle⟩
              rcases hdn with hdn | hdn
              · rcases List.mem_cons.mp hdn with heqw | hdn
                · refine ⟨d, Or.inr (List.mem_append.mpr (Or.inr ?_)), ?_⟩
                  · rw [List.mem_singleton]
                    injection heqw with a1 b1
                    rw [a1]
                  · injection heqw with a1 b1
                    rw [← b1]
                    exact hle
                · exact ⟨dn, Or.inl hdn, hle⟩
              · exact ⟨dn, Or.inr (List.mem_append.mpr (Or.inl hdn)), hle⟩
            · rw [List.mem_singleton.mp ha] at halt
              exact absurd halt (lt_irrefl d)
        have hf2 : rest.length + (univ.length - seen.length) < fuel := by
          simp only [List.length_cons] at hfuel
          omega
        rcases ih rest seen (accN ++ [(cur, d)]) accE accN' accE' seen' ok
          heq hinv2 huniv hf2 with ⟨hok, hfin, hmono, hacc, hedge⟩
        refine ⟨hok, hfin, hmono, ?_, hedge⟩
        rintro q (hq | hq)
        · rcases List.mem_cons.mp hq with heqw | hq
          · exact hacc q (Or.inr (List.mem_append.mpr (Or.inr (by
              rw [List.mem_singleton, heqw]))))
          · exact hacc q (Or.inl hq)
        · exact hacc q (Or.inr (List.mem_append.mpr (Or.inl hq)))
      · rw [if_neg hmax] at heq
        have hdle : d ≤ maxD := (hinv.sound_queue _ hhead).1
        have hdlt : d < maxD := Nat.lt_of_le_of_ne hdle hmax
        have hcurball : cur ∈ ball adj root d := (hinv.sound_queue _ hhead).2
        have hcurseen : cur ∈ seen := hinv.queue_sub_seen _ hhead
        have hrest_pw := (List.pairwise_cons.mp hinv.two_level).2
        have hhead_rel := (List.pairwise_cons.mp hinv.two_level).1
        set E := obfsExpand cur d (adj cur) seen rest accE with hE
        have F1 : ∀ x, x ∈ E.1 ↔ x ∈ seen ∨ x ∈ adj cur :=
          fun x => obfsExpand_mem_seen cur d (adj cur) seen rest accE x
        have F2 : E.1.Nodup :=
          obfsExpand_nodup cur d (adj cur) seen rest accE hinv.seen_nodup
        have F4 : ∀ q : String × Nat, q ∈ E.2.1 ↔
            q ∈ rest ∨ (q.2 = d + 1 ∧ q.1 ∈ adj cur ∧ q.1 ∉ seen) :=
          fun q => obfsExpand_mem_queue cur d (adj cur) seen rest accE q
        have F5 : ∀ e : String × String, e ∈ E.2.2 ↔
            e ∈ accE ∨ (e.1 = cur ∧ e.2 ∈ adj cur) :=
          fun e => obfsExpand_mem_edges cur d (adj cur) seen rest accE e
        have F6 : E.1.length + rest.length = E.2.1.length + seen.length :=
          obfsExpand_lengths cur d (adj cur) seen rest accE
        have huniv2 : ∀ x ∈ E.1, x ∈ univ := by
          intro x hx
          rcases (F1 x).mp hx with hx | hx
          · exact huniv x hx
          · exact hadj cur x hx
        have hlen1 : E.1.length ≤ univ.length :=
          (List.subperm_of_subset F2 fun x hx => huniv2 x hx).length_le
        have hlen0 : seen.length ≤ univ.length :=
          (List.subperm_of_subset hinv.seen_nodup fun x hx => huniv x hx).length_le
        have hf2 : E.2.1.length + (univ.length - E.1.length) < fuel := by
          simp only [List.length_cons] at hfuel
          omega
        have hinv2 : BfsInv adj maxD root E.2.1 E.1 (accN ++ [(cur, d)]) := by
          rcases obfsExpand_queue_struct cur d (adj cur) seen rest accE with
            ⟨adds, hqeq, hadds⟩
          refine ⟨F2, ?_, ?_, ?_, ?_, ?_, ?_, ?_, ?_⟩
          · intro q hq
            rcases (F4 q).mp hq with hq | ⟨h1, h2, h3⟩
            · exact (F1 q.1).mpr (Or.inl (hinv.queue_sub_seen q (List.mem_cons_of_mem _ hq)))
            · exact (F1 q.1).mpr (Or.inr h2)
          · intro x hx
            by_cases hxs : x ∈ seen
            · rcases hinv.seen_covered x hxs with ⟨dw, hw⟩ | ⟨dw, hw⟩
              · rcases List.mem_cons.mp hw with heqw | hw
                · refine Or.inr ⟨d, List.mem_append.mpr (Or.inr ?_)⟩
                  rw [List.mem_singleton]
                  injection heqw with a b
                  rw [a]
                · exact Or.inl ⟨dw, (F4 (x, dw)).mpr (Or.inl hw)⟩
              · exact Or.inr ⟨dw, List.mem_append.mpr (Or.inl hw)⟩
            · rcases (F1 x).mp hx with hx | hx
              · exact absurd hx hxs
              · exact Or.inl ⟨d + 1, (F4 (x, d + 1)).mpr (Or.inr ⟨rfl, hx, hxs⟩)⟩
          · intro q hq
            rcases (F4 q).mp hq with hq | ⟨h1, h2, h3⟩
            · exact hinv.sound_queue q (List.mem_cons_of_mem _ hq)
            · constructor
              · rw [h1]
                exact hdlt
              · rw [h1]
                exact ball_succ_of_adj adj root d cur q.1 hcurball h2
          · intro q hq
            rcases List.mem_append.mp hq with hq | hq
            · exact hinv.sound_acc q hq
            · rw [List.mem_singleton.mp hq]
              exact ⟨hdle, hcurball⟩
          · intro q hq
            rcases List.mem_append.mp hq with hq | hq
            · exact (F1 q.1).mpr (Or.inl (hinv.acc_sub_seen q hq))
            · rw [List.mem_singleton.mp hq]
              exact (F1 cur).mpr (Or.inl hcurseen)
          · rw [hqeq]
            rw [List.pairwise_append]
            refine ⟨hrest_pw, ?_, ?_⟩
            · refine List.pairwise_of_forall_mem_list ?_
              intro a ha b hb
              rw [(hadds a ha).1, (hadds b hb).1]
              omega
            · intro a ha b hb
              have h1 := (hhead_rel a ha)
              rw [(hadds b hb).1]
              omega
          · intro a ha q hq
            rcases (F4 q).mp hq with hq | ⟨h1, -, -⟩
            · rcases List.mem_append.mp ha with ha | ha
              · exact hinv.acc_le_queue a ha q (List.mem_cons_of_mem _ hq)
              · rw [List.mem_singleton.mp ha]
                exact (hhead_rel q hq).1
            · rcases List.mem_append.mp ha with ha | ha
              · have := hinv.acc_le_queue a ha _ hhead
                omega
              · rw [List.mem_singleton.mp ha]
                omega
          · intro a ha halt nb hnb
            rcases List.mem_append.mp ha with ha | ha
            · rcases hinv.acc_expanded a ha halt nb hnb with ⟨dn, hdn, hle⟩
              rcases hdn with hdn | hdn
              · rcases List.mem_cons.mp hdn with heqw | hdn
                · refine ⟨d, Or.inr (List.mem_append.mpr (Or.inr ?_)), ?_⟩
                  · rw [List.mem_singleton]
                    injection heqw with a1 b1
                    rw [a1]
                  · injection heqw with a1 b1
                    rw [← b1]
                    exact hle
                · exact ⟨dn, Or.inl ((F4 (nb, dn)).mpr (Or.inl hdn)), hle⟩
              · exact ⟨dn, Or.inr (List.mem_append.mpr (Or.inl hdn)), hle⟩
            · rw [List.mem_singleton.mp ha] at halt hnb ⊢
              by_cases hs : nb ∈ seen
              · rcases hinv.seen_covered nb hs with ⟨dw, hw⟩ | ⟨dw, hw⟩
                · rcases List.mem_cons.mp hw with heqw | hw
                  · refine ⟨d, Or.inr (List.mem_append.mpr (Or.inr ?_)), by omega⟩
                    rw [List.mem_singleton]
                    injection heqw with a1 b1
                    rw [a1]
                  · refine ⟨dw, Or.inl ((F4 (nb, dw)).mpr (Or.inl hw)), ?_⟩
                    exact (hhead_rel _ hw).2
                · refine ⟨dw, Or.inr (List.mem_append.mpr (Or.inl hw)), ?_⟩
                  have := hinv.acc_le_queue _ hw _ hhead
                  omega
              · exact ⟨d + 1, Or.inl ((F4 (nb, d + 1)).mpr (Or.inr ⟨rfl, hnb, hs⟩)),
                  Nat.le_refl _⟩
        rcases ih E.2.1 E.1 (accN ++ [(cur, d)]) E.2.2 accN' accE' seen' ok
          heq hinv2 huniv2 hf2 with ⟨hok, hfin, hmono, hacc, hedge⟩
        refine ⟨hok, hfin, ?_, ?_, ?_⟩
        · intro x hx
          exact hmono x ((F1 x).mpr (Or.inl hx))
        · rintro q (hq | hq)
          · rcases List.mem_cons.mp hq with heqw | hq
            · exact hacc q (Or.inr (List.mem_append.mpr (Or.inr (by
                rw [List.mem_singleton, heqw]))))
            · exact hacc q (Or.inl ((F4 q).mpr (Or.inl hq)))
          · exact hacc q (Or.inr (List.mem_append.mpr (Or.inl hq)))
        · intro e he
          rcases hedge e he with he2 | hgood
          · rcases (F5 e).mp he2 with he2 | ⟨h1, h2⟩
            · exact Or.inl he2
            · refine Or.inr ⟨⟨d, ?_⟩, ?_⟩
              · rw [h1]
                exact hacc (cur, d) (Or.inr (List.mem_append.mpr (Or.inr
                  (List.mem_singleton.mpr rfl))))
              · exact hmono e.2 ((F1 e.2).mpr (Or.inr h2))
          · exact Or.inr hgood

theorem ball_mono_le (adj : String → List String) (root : String) {k d : Nat}
    (h : k ≤ d) (x : String) (hx : x ∈ ball adj root k) : x ∈ ball adj root d := by
  induction d with
  | zero =>
    rw [Nat.le_zero.mp h] at hx
    exact hx
  | succ d ihd =>
    rcases Nat.lt_or_ge k (d + 1) with hlt | hge
    · exact mem_ball_mono adj root d x (ihd (Nat.lt_succ_iff.mp hlt))
    · rw [Nat.le_antisymm h hge] at hx
      exact hx

theorem ball_sub_univ (adj : String → List String) (root : String)
    (univ : List String) (hadj : ∀ t : String, ∀ n ∈ adj t, n ∈ univ)
    (hroot : root ∈ univ) (d : Nat) (x : String) (hx : x ∈ ball adj root d) :
    x ∈ univ := by
  rcases (mem_ball_iff adj root d x).mp hx with ⟨k, -, hw⟩
  clear hx
  induction hw with
  | refl a => exact hroot
  | step hb hw ih => exact ih (hadj _ _ hb)

/-- Completeness at the drained queue: everything reachable within the
remaining budget of a visited entry has been seen. -/
theorem bfs_final_complete (adj : String → List String) (maxD : Nat) (root : String)
    (seen : List String) (accN : List (String × Nat))
    (hfin : BfsInv adj maxD root [] seen accN) :
    ∀ (j : Nat) (y : String) (dy : Nat), (y, dy) ∈ accN →
    ∀ z, WalkN adj y z j → dy + j ≤ maxD → z ∈ seen := by
  intro j
  induction j with
  | zero =>
    intro y dy hy z hw _
    rw [← walkN_zero hw]
    exact hfin.acc_sub_seen (y, dy) hy
  | succ j ihj =>
    intro y dy hy z hw hle
    cases hw with
    | step hb hw =>
      rename_i nb
      have hdy : dy < maxD := by omega
      rcases hfin.acc_expanded (y, dy) hy hdy nb hb with ⟨dn, hdn, hdnle⟩
      rcases hdn with hdn | hdn
      · exact absurd hdn (List.not_mem_nil _)
      · exact ihj nb dn hdn z hw (by omega)

/-- The run of the offline subgraph BFS from a known root: the run
completes, the visited set is exactly the ball of the clamped radius, and
every recorded edge has both endpoints among the visited titles. -/
theorem obfs_run_ball (adj : String → List String) (maxD : Nat) (root : String)
    (univ : List String) (hadj : ∀ t : String, ∀ n ∈ adj t, n ∈ univ)
    (hroot : root ∈ univ) (fuel : Nat) (hfuel : univ.length < fuel) :
    (∀ x : String, (∃ dd, (x, dd) ∈ (obfs adj maxD fuel [(root, 0)] [root] [] []).1) ↔
        x ∈ ball adj root maxD) ∧
    (∀ e ∈ (obfs adj maxD fuel [(root, 0)] [root] [] []).2.1,
        (∃ dd, (e.1, dd) ∈ (obfs adj maxD fuel [(root, 0)] [root] [] []).1) ∧
        (∃ dd, (e.2, dd) ∈ (obfs adj maxD fuel [(root, 0)] [root] [] []).1)) := by
  have hinv0 : BfsInv adj maxD root [(root, 0)] [root] [] := by
    refine ⟨List.nodup_singleton root, ?_, ?_, ?_, ?_, ?_, ?_, ?_, ?_⟩
    · intro q hq
      rw [List.mem_singleton.mp hq]
      exact List.mem_singleton.mpr rfl
    · intro x hx
      rw [List.mem_singleton.mp hx]
      exact Or.inl ⟨0, List.mem_singleton.mpr rfl⟩
    · intro q hq
      rw [List.mem_singleton.mp hq]
      exact ⟨Nat.zero_le _, root_mem_ball adj root 0⟩
    · intro q hq
      exact absurd hq (List.not_mem_nil q)
    · intro q hq
      exact absurd hq (List.not_mem_nil q)
    · exact List.pairwise_singleton _ _
    · intro a ha
      exact absurd ha (List.not_mem_nil a)
    · intro a ha
      exact absurd ha (List.not_mem_nil a)
  have huniv0 : ∀ x ∈ [root], x ∈ univ := by
    intro x hx
    rw [List.mem_singleton.mp hx]
    exact hroot
  have hfuel0 : [(root, 0)].length + (univ.length - [root].length) < fuel := by
    have : (1 : Nat) ≤ univ.length := List.length_pos.mpr (List.ne_nil_of_mem hroot)
    simp only [List.length_singleton]
    omega
  rcases obfs_run adj maxD root univ hadj fuel [(root, 0)] [root] [] []
    (obfs adj maxD fuel [(root, 0)] [root] [] []).1
    (obfs adj maxD fuel [(root, 0)] [root] [] []).2.1
    (obfs adj maxD fuel [(root, 0)] [root] [] []).2.2.1
    (obfs adj maxD fuel [(root, 0)] [root] [] []).2.2.2
    rfl hinv0 huniv0 hfuel0 with ⟨-, hfin, hmono, hacc, hedge⟩
  have hroot_acc : (root, 0) ∈ (obfs adj maxD fuel [(root, 0)] [root] [] []).1 :=
    hacc (root, 0) (Or.inl (List.mem_singleton.mpr rfl))
  have hseen_iff : ∀ x : String,
      x ∈ (obfs adj maxD fuel [(root, 0)] [root] [] []).2.2.1 ↔
        ∃ dd, (x, dd) ∈ (obfs adj maxD fuel [(root, 0)] [root] [] []).1 := by
    intro x
    constructor
    · intro hx
      rcases hfin.seen_covered x hx with ⟨dw, hw⟩ | hw
      · exact absurd hw (List.not_mem_nil _)
      · exact hw
    · rintro ⟨dd, hdd⟩
      exact hfin.acc_sub_seen (x, dd) hdd
  constructor
  · intro x
    constructor
    · rintro ⟨dd, hdd⟩
      exact ball_mono_le adj root (hfin.sound_acc (x, dd) hdd).1 x
        (hfin.sound_acc (x, dd) hdd).2
    · intro hx
      rcases (mem_ball_iff adj root maxD x).mp hx with ⟨k, hk, hw⟩
      exact (hseen_iff x).mp
        (bfs_final_complete adj maxD root _ _ hfin k root 0 hroot_acc x hw (by omega))
  · intro e he
    rcases hedge e he with he2 | ⟨h1, h2⟩
    · exact absurd he2 (List.not_mem_nil e)
    · exact ⟨h1, (hseen_iff e.2).mp h2⟩

/-! ### From the BFS run to the offline subgraph result -/

theorem mem_offEdgePairs_keys (input : PInput) (a b : String)
    (h : (a, b) ∈ offEdgePairs input) : a ∈ pKeys input ∧ b ∈ pKeys input := by
  rcases List.mem_append.mp h with h | h
  · rcases List.mem_flatMap.mp h with ⟨p, hp, hm⟩
    rcases List.mem_filterMap.mp hm with ⟨r, hr, he⟩
    split at he
    · rename_i hc
      injection he with e1
      injection e1 with e1 e2
      exact ⟨e1 ▸ hc.1, e2 ▸ hc.2⟩
    · exact Option.noConfusion he
  · rcases List.mem_flatMap.mp h with ⟨p, hp, hm⟩
    rcases List.mem_filterMap.mp hm with ⟨l, hl, he⟩
    split at he
    · rename_i hc
      injection he with e1
      injection e1 with e1 e2
      exact ⟨e1 ▸ List.mem_map.mpr ⟨p, hp, rfl⟩, e2 ▸ hc⟩
    · exact Option.noConfusion he

theorem mem_pydedupAux (seen l : List String) (x : String) :
    x ∈ pydedupAux seen l ↔ x ∈ l ∧ x ∉ seen := by
  induction l generalizing seen with
  | nil => simp [pydedupAux]
  | cons a l ih =>
    rw [pydedupAux]
    by_cases h : a ∈ seen
    · rw [if_pos h, ih]
      constructor
      · rintro ⟨h1, h2⟩
        exact ⟨List.mem_cons_of_mem a h1, h2⟩
      · rintro ⟨h1, h2⟩
        rcases List.mem_cons.mp h1 with rfl | h1
        · exact absurd h h2
        · exact ⟨h1, h2⟩
    · rw [if_neg h]
      constructor
      · intro hm
        rcases List.mem_cons.mp hm with rfl | hm
        · exact ⟨List.mem_cons_self _ _, h⟩
        · rcases (ih (a :: seen)).mp hm with ⟨h1, h2⟩
          refine ⟨List.mem_cons_of_mem a h1, fun hc => h2 (List.mem_cons_of_mem a hc)⟩
      · rintro ⟨h1, h2⟩
        rcases List.mem_cons.mp h1 with rfl | h1
        · exact List.mem_cons_self x _
        · by_cases hxa : x = a
          · subst hxa
            exact List.mem_cons_self x _
          · exact List.mem_cons_of_mem a ((ih (a :: seen)).mpr
              ⟨h1, fun hc => (List.mem_cons.mp hc).elim hxa h2⟩)

theorem mem_pydedup (l : List String) (x : String) :
    x ∈ pydedup l ↔ x ∈ l := by
  rw [pydedup, mem_pydedupAux]
  simp

theorem mem_offAdj (input : PInput) (t x : String) :
    x ∈ offAdj input t ↔
      (t, x) ∈ offEdgePairs input ∨ (x, t) ∈ offEdgePairs input := by
  rw [offAdj, mem_pydedup, List.mem_filterMap]
  constructor
  · rintro ⟨q, hq, he⟩
    by_cases h1 : q.1 = t
    · rw [if_pos h1] at he
      injection he with he
      subst he
      exact Or.inl (by rw [← h1]; exact hq)
    · rw [if_neg h1] at he
      by_cases h2 : q.2 = t
      · rw [if_pos h2] at he
        injection he with he
        subst he
        exact Or.inr (by rw [← h2]; exact hq)
      · rw [if_neg h2] at he
        exact Option.noConfusion he
  · rintro (h | h)
    · exact ⟨(t, x), h, by rw [if_pos rfl]⟩
    · by_cases hxt : x = t
      · exact ⟨(x, t), h, by rw [if_pos hxt]; rw [hxt]⟩
      · exact ⟨(x, t), h, by rw [if_neg hxt, if_pos rfl]⟩

theorem offAdj_sub_keys (input : PInput) (t x : String)
    (h : x ∈ offAdj input t) : x ∈ pKeys input := by
  rcases (mem_offAdj input t x).mp h with h | h
  · exact (mem_offEdgePairs_keys input t x h).2
  · exact (mem_offEdgePairs_keys input x t h).1

theorem offNode?_some_of_key (input : PInput) (x : String) (hx : x ∈ pKeys input) :
    ∃ n, offNode? input x = some n ∧ n.id = x := by
  rw [offNode?]
  cases hfind : (offNodes input).find? (fun n => n.id == x) with
  | some n => exact ⟨n, rfl, by simpa using List.find?_some hfind⟩
  | none =>
    exfalso
    rcases List.mem_map.mp hx with ⟨p, hp, he⟩
    have hmem : (⟨p.1, p.1, p.2.orig.summary, p.2.orig.url, p.2.orig.categories⟩ : ExpNode)
        ∈ offNodes input := List.mem_map.mpr ⟨p, hp, rfl⟩
    have := List.find?_eq_none.mp hfind _ hmem
    simp [he] at this

theorem offNode?_id (input : PInput) (x : String) (n : ExpNode)
    (h : offNode? input x = some n) : n.id = x := by
  have := List.find?_some h
  simpa using this

theorem mem_uniqPairsAux_sub (seen : List (String × String))
    (l : List (String × String)) (q : String × String)
    (h : q ∈ uniqPairsAux seen l) : q ∈ l := by
  induction l generalizing seen with
  | nil => exact absurd h (List.not_mem_nil q)
  | cons a l ih =>
    rw [uniqPairsAux] at h
    split at h
    · exact List.mem_cons_of_mem a (ih _ h)
    · rcases List.mem_cons.mp h with rfl | h
      · exact List.mem_cons_self q l
      · exact List.mem_cons_of_mem a (ih _ h)

/-- The node ids of the offline subgraph BFS are exactly the ball of the
clamped radius around the root (the root being a known title). -/
theorem offSubgraphRun_nodes (input : PInput) (root : String) (depth : Int)
    (hroot : root ∈ pKeys input) (x : String) :
    (∃ n ∈ (offSubgraphRun input root depth).nodes, n.id = x) ↔
      x ∈ ball (offAdj input) root (clampNat 1 5 depth) := by
  have hadj : ∀ t : String, ∀ n ∈ offAdj input t, n ∈ pKeys input :=
    fun t n h => offAdj_sub_keys input t n h
  have hfuel : (pKeys input).length < input.length + 1 := by
    simp [pKeys]
  have hmain := obfs_run_ball (offAdj input) (clampNat 1 5 depth) root
    (pKeys input) hadj hroot (input.length + 1) hfuel
  constructor
  · rintro ⟨n, hn, hid⟩
    rcases List.mem_filterMap.mp hn with ⟨q, hq, he⟩
    have : n.id = q.1 := offNode?_id input q.1 n he
    rw [← hid, this]
    exact (hmain.1 q.1).mp ⟨q.2, hq⟩
  · intro hx
    rcases (hmain.1 x).mpr hx with ⟨dd, hdd⟩
    have hxk : x ∈ pKeys input :=
      ball_sub_univ (offAdj input) root (pKeys input) hadj hroot _ x hx
    rcases offNode?_some_of_key input x hxk with ⟨n, hn, hid⟩
    exact ⟨n, List.mem_filterMap.mpr ⟨(x, dd), hdd, hn⟩, hid⟩

/-- Every edge of the offline subgraph result has both endpoints among the
returned node ids. -/
theorem offSubgraphRun_edges_closed (input : PInput) (root : String) (depth : Int)
    (hroot : root ∈ pKeys input) :
    ∀ e ∈ (offSubgraphRun input root depth).edges,
      (∃ n ∈ (offSubgraphRun input root depth).nodes, n.id = e.source) ∧
      (∃ n ∈ (offSubgraphRun input root depth).nodes, n.id = e.target) := by
  have hadj : ∀ t : String, ∀ n ∈ offAdj input t, n ∈ pKeys input :=
    fun t n h => offAdj_sub_keys input t n h
  have hfuel : (pKeys input).length < input.length + 1 := by
    simp [pKeys]
  have hmain := obfs_run_ball (offAdj input) (clampNat 1 5 depth) root
    (pKeys input) hadj hroot (input.length + 1) hfuel
  intro e he
  rcases List.mem_map.mp he with ⟨q, hq, heq⟩
  have hq2 := mem_uniqPairsAux_sub [] _ q hq
  rcases (hmain.2 q hq2) with ⟨⟨d1, h1⟩, ⟨d2, h2⟩⟩
  subst heq
  constructor
  · exact (offSubgraphRun_nodes input root depth hroot q.1).mpr
      ((hmain.1 q.1).mp ⟨d1, h1⟩)
  · exact (offSubgraphRun_nodes input root depth hroot q.2).mpr
      ((hmain.1 q.2).mp ⟨d2, h2⟩)

/-! ### The persistent subgraph node set -/

theorem assocFind_isSome_of_mem (l : List (String × NodeData)) (t : String)
    (h : t ∈ l.map Prod.fst) : ∃ nd, assocFind l t = some nd := by
  induction l with
  | nil => simp at h
  | cons p rest ih =>
    by_cases hp : p.1 = t
    · exact ⟨p.2, by simp [assocFind, hp]⟩
    · have h2 : t ∈ rest.map Prod.fst := by
        rcases List.mem_map.mp h with ⟨q, hq, he⟩
        rcases List.mem_cons.mp hq with rfl | hq
        · exact absurd he hp
        · exact List.mem_map.mpr ⟨q, hq, he⟩
      rcases ih h2 with ⟨nd, hnd⟩
      exact ⟨nd, by simp [assocFind, hp, hnd]⟩

/-- A neighbourless (or missing) root makes `UNWIND rels AS r` eliminate
every row: `export_subgraph` returns the empty result without the
root. -/
theorem pExportSubgraph_ok (g : KG) (root : String) (depth : Int)
    (relTypes : Option (List String))
    (h : pNbrs g (allowedOf relTypes) root = []) :
    pExportSubgraph g root depth relTypes = Except.ok ⟨[], []⟩ := by
  simp only [pExportSubgraph]
  split
  · rw [if_neg]
    rintro ⟨-, hne⟩
    exact hne h
  · rfl

/-- A root with an incident allowed relationship reaches
`startNode(r)` on the list-typed variable-length binding: the query
raises. -/
theorem pExportSubgraph_raises (g : KG) (root : String) (depth : Int)
    (relTypes : Option (List String)) (hroot : root ∈ g.titles)
    (h : pNbrs g (allowedOf relTypes) root ≠ []) :
    pExportSubgraph g root depth relTypes = Except.error () := by
  have hd : 1 ≤ pSubDepth depth := by unfold pSubDepth clampNat; omega
  simp only [pExportSubgraph]
  rw [if_pos hroot, if_pos ⟨hd, h⟩]

/-- Whenever the persistent `export_subgraph` returns at all, it returns
the empty result. -/
theorem pExportSubgraph_ok_empty (g : KG) (root : String) (depth : Int)
    (relTypes : Option (List String)) (res : QueryResult)
    (h : pExportSubgraph g root depth relTypes = Except.ok res) :
    res = ⟨[], []⟩ := by
  simp only [pExportSubgraph] at h
  split at h
  · split at h
    · exact Except.noConfusion h
    · injection h with h
      exact h.symm
  · injection h with h
    exact h.symm

/-- A neighbour in the persistent traversal is an edge key of an allowed
type in one direction or the other. -/
theorem mem_pNbrs (g : KG) (allowed : List String) (t x : String) :
    x ∈ pNbrs g allowed t ↔
      ∃ τ, τ ∈ allowed ∧ ((t, x, τ) ∈ g.edgeKeys ∨ (x, t, τ) ∈ g.edgeKeys) := by
  rw [pNbrs, List.mem_append, List.mem_filterMap, List.mem_filterMap]
  constructor
  · rintro (⟨e, he, hcond⟩ | ⟨e, he, hcond⟩)
    · split at hcond
      · rename_i hc
        injection hcond with hcond
        refine ⟨e.rtype, hc.1, Or.inl ?_⟩
        rw [← hc.2, ← hcond]
        exact List.mem_map.mpr ⟨e, he, rfl⟩
      · exact Option.noConfusion hcond
    · split at hcond
      · rename_i hc
        injection hcond with hcond
        refine ⟨e.rtype, hc.1, Or.inr ?_⟩
        rw [← hc.2, ← hcond]
        exact List.mem_map.mpr ⟨e, he, rfl⟩
      · exact Option.noConfusion hcond
  · rintro ⟨τ, hτ, hk | hk⟩
    · rcases List.mem_map.mp hk with ⟨e, he, hfields⟩
      injection hfields with f1 hfields
      injection hfields with f2 f3
      refine Or.inl ⟨e, he, ?_⟩
      rw [if_pos ⟨f3 ▸ hτ, f1⟩, f2]
    · rcases List.mem_map.mp hk with ⟨e, he, hfields⟩
      injection hfields with f1 hfields
      injection hfields with f2 f3
      refine Or.inr ⟨e, he, ?_⟩
      rw [if_pos ⟨f3 ▸ hτ, f2⟩, f1]

/-- Membership in the offline adjacency pair list. -/
theorem mem_offEdgePairs_iff (input : PInput) (a b : String) :
    (a, b) ∈ offEdgePairs input ↔
      (∃ p ∈ input, ∃ r ∈ p.2.rels, r.1 = a ∧ r.2.1 = b ∧
        r.1 ∈ pKeys input ∧ r.2.1 ∈ pKeys input) ∨
      (∃ p ∈ input, ∃ l ∈ p.2.orig.links, l ∈ pKeys input ∧ a = p.1 ∧ b = l) := by
  rw [offEdgePairs, List.mem_append, List.mem_flatMap, List.mem_flatMap]
  constructor
  · rintro (⟨p, hp, hm⟩ | ⟨p, hp, hm⟩)
    · rcases List.mem_filterMap.mp hm with ⟨r, hr, he⟩
      split at he
      · rename_i hc
        injection he with he
        injection he with e1 e2
        exact Or.inl ⟨p, hp, r, hr, e1, e2, hc⟩
      · exact Option.noConfusion he
    · rcases List.mem_filterMap.mp hm with ⟨l, hl, he⟩
      split at he
      · rename_i hc
        injection he with he
        injection he with e1 e2
        exact Or.inr ⟨p, hp, l, hl, hc, e1.symm, e2.symm⟩
      · exact Option.noConfusion he
  · rintro (⟨p, hp, r, hr, e1, e2, hc⟩ | ⟨p, hp, l, hl, hc, e1, e2⟩)
    · refine Or.inl ⟨p, hp, List.mem_filterMap.mpr ⟨r, hr, ?_⟩⟩
      rw [if_pos hc, e1, e2]
    · refine Or.inr ⟨p, hp, List.mem_filterMap.mpr ⟨l, hl, ?_⟩⟩
      rw [if_pos hc, e1, e2]

/-! ### Backend agreement when every endpoint is a key and every type is
traversable -/

/-- Under endpoint presence, the loaded store holds exactly the mapping's
keys as titles. -/
theorem titles_load_eq_keys (input : PInput)
    (hend : ∀ p ∈ input, ∀ r ∈ p.2.rels, r.1 ∈ pKeys input ∧ r.2.1 ∈ pKeys input)
    (t : String) :
    t ∈ (loadProcessedData input KG.empty).titles ↔ t ∈ pKeys input := by
  rw [mem_titles_load]
  constructor
  · rintro (h | h | ⟨p, hp, r, hr, rfl, -⟩)
    · exact absurd h (List.not_mem_nil t)
    · exact h
    · exact (hend p hp r hr).2
  · intro h
    exact Or.inr (Or.inl h)

/-- Under endpoint presence and traversable normalized types, the
undirected typed adjacency of the loaded store coincides with the offline
adjacency built from the same input. -/
theorem pNbrs_load_eq_offAdj (input : PInput)
    (hend : ∀ p ∈ input, ∀ r ∈ p.2.rels, r.1 ∈ pKeys input ∧ r.2.1 ∈ pKeys input)
    (htypes : ∀ p ∈ input, ∀ r ∈ p.2.rels, normType r.2.2 ∈ defaultRelTypes)
    (t x : String) :
    x ∈ pNbrs (loadProcessedData input KG.empty) defaultRelTypes t ↔
      x ∈ offAdj input t := by
  have hkey : ∀ (a b : String) (τ : String),
      (a, b, τ) ∈ (loadProcessedData input KG.empty).edgeKeys →
        (a, b) ∈ offEdgePairs input := by
    intro a b τ hk
    rw [mem_edgeKeys_load] at hk
    rcases hk with hk | ⟨p, hp, r, hr, hfields, -⟩ | ⟨p, hp, l, hl, hlk, hfields⟩
    · exact absurd hk (List.not_mem_nil _)
    · injection hfields with e1 hfields
      injection hfields with e2 e3
      have hsrc : (if r.1 ∈ pKeys input then r.1 else p.1) = r.1 :=
        if_pos (hend p hp r hr).1
      rw [e1, hsrc, e2]
      exact (mem_offEdgePairs_iff input r.1 r.2.1).mpr
        (Or.inl ⟨p, hp, r, hr, rfl, rfl, hend p hp r hr⟩)
    · injection hfields with e1 hfields
      injection hfields with e2 e3
      rw [e1, e2]
      exact (mem_offEdgePairs_iff input p.1 l).mpr
        (Or.inr ⟨p, hp, l, hl, hlk, rfl, rfl⟩)
  have hpair : ∀ a b : String, (a, b) ∈ offEdgePairs input →
      ∃ τ ∈ defaultRelTypes, (a, b, τ) ∈ (loadProcessedData input KG.empty).edgeKeys := by
    intro a b hab
    rcases (mem_offEdgePairs_iff input a b).mp hab with
      ⟨p, hp, r, hr, e1, e2, hc⟩ | ⟨p, hp, l, hl, hlk, e1, e2⟩
    · refine ⟨normType r.2.2, htypes p hp r hr, ?_⟩
      rw [mem_edgeKeys_load]
      refine Or.inr (Or.inl ⟨p, hp, r, hr, ?_, Or.inr (Or.inr (hend p hp r hr).2)⟩)
      rw [if_pos (hend p hp r hr).1, e1, e2]
    · refine ⟨"LINKS_TO", by rw [defaultRelTypes]; exact List.mem_cons_self _ _, ?_⟩
      rw [mem_edgeKeys_load]
      refine Or.inr (Or.inr ⟨p, hp, l, hl, hlk, ?_⟩)
      rw [e1, e2]
  rw [mem_pNbrs, mem_offAdj]
  constructor
  · rintro ⟨τ, hτ, hk | hk⟩
    · exact Or.inl (hkey t x τ hk)
    · exact Or.inr (hkey x t τ hk)
  · rintro (h | h)
    · rcases hpair t x h with ⟨τ, hτ, hk⟩
      exact ⟨τ, hτ, Or.inl hk⟩
    · rcases hpair x t h with ⟨τ, hτ, hk⟩
      exact ⟨τ, hτ, Or.inr hk⟩

/-! ### The offline path BFS: self-paths and closure -/

/-- The neighbour loop never "finds" a target that already has a
predecessor entry, and the predecessor keys only grow. -/
theorem opathExpand_not_found (cur : String) (dcur : Nat) (target : String) :
    ∀ (nbs : List String) (prev : List (String × Option String))
      (depths : List (String × Nat)) (adds : List String),
    target ∈ prev.map Prod.fst →
    (opathExpand cur dcur target nbs prev depths adds).1 = false ∧
    target ∈ (opathExpand cur dcur target nbs prev depths adds).2.1.map Prod.fst := by
  intro nbs
  induction nbs with
  | nil =>
    intro prev depths adds h
    exact ⟨rfl, h⟩
  | cons nb rest ih =>
    intro prev depths adds h
    rw [opathExpand]
    by_cases hm : nb ∈ prev.map Prod.fst
    · rw [if_pos hm]
      exact ih prev depths adds h
    · rw [if_neg hm]
      have hne : ¬ nb = target := fun hc => hm (hc ▸ h)
      rw [if_neg hne]
      refine ih _ _ _ ?_
      rw [List.map_append]
      exact List.mem_append.mpr (Or.inl h)

/-- The path BFS never reports `found` when the target already has a
predecessor entry (in particular when target = source). -/
theorem opath_not_found (adj : String → List String) (target : String) (maxD : Nat) :
    ∀ (fuel : Nat) (queue : List String) (prev : List (String × Option String))
      (depths : List (String × Nat)),
    target ∈ prev.map Prod.fst →
    (opath adj target maxD fuel queue prev depths).1 = false := by
  intro fuel
  induction fuel with
  | zero =>
    intro queue prev depths h
    cases queue with
    | nil => rfl
    | cons cur rest => rfl
  | succ fuel ih =>
    intro queue prev depths h
    cases queue with
    | nil => rfl
    | cons cur rest =>
      rw [opath]
      by_cases hd : maxD ≤ depthOf depths cur
      · rw [if_pos hd]
        exact ih rest prev depths h
      · rw [if_neg hd]
        rcases opathExpand_not_found cur (depthOf depths cur) target (adj cur)
          prev depths [] h with ⟨hfound, hkeys⟩
        simp only [hfound]
        rw [if_neg (by decide : ¬ (false = true))]
        exact ih _ _ _ hkeys

/-- The offline shortest path from a title to itself is empty: the trivial
zero-edge path is never produced. -/
theorem offPathRun_self_aux (input : PInput) (s : String) (maxDepth : Int)
    (h : s ∈ pKeys input) : offPathRun input s s maxDepth = ⟨[], []⟩ := by
  rw [offPathRun, if_pos ⟨h, h⟩]
  have hf := opath_not_found (offAdj input) s (clampNat 1 10 maxDepth)
    (input.length + 2) [s] [(s, none)] [(s, 0)]
    (by simp)
  simp [hf]

/-- Predecessor-map entries added by the neighbour loop: an unreached
neighbour pointing back at the current title. -/
theorem opathExpand_prev_entries (cur : String) (dcur : Nat) (target : String) :
    ∀ (nbs : List String) (prev : List (String × Option String))
      (depths : List (String × Nat)) (adds : List String)
      (q : String × Option String),
    q ∈ (opathExpand cur dcur target nbs prev depths adds).2.1 →
    q ∈ prev ∨ (q.1 ∈ nbs ∧ q.2 = some cur) := by
  intro nbs
  induction nbs with
  | nil =>
    intro prev depths adds q hq
    exact Or.inl hq
  | cons nb rest ih =>
    intro prev depths adds q hq
    rw [opathExpand] at hq
    by_cases hm : nb ∈ prev.map Prod.fst
    · rw [if_pos hm] at hq
      rcases ih prev depths adds q hq with h | ⟨h1, h2⟩
      · exact Or.inl h
      · exact Or.inr ⟨List.mem_cons_of_mem nb h1, h2⟩
    · rw [if_neg hm] at hq
      by_cases ht : nb = target
      · rw [if_pos ht] at hq
        rcases List.mem_append.mp hq with hq | hq
        · exact Or.inl hq
        · have : q = (nb, some cur) := List.mem_singleton.mp hq
          subst this
          exact Or.inr ⟨List.mem_cons_self nb rest, rfl⟩
      · rw [if_neg ht] at hq
        rcases ih _ _ _ q hq with h | ⟨h1, h2⟩
        · rcases List.mem_append.mp h with h | h
          · exact Or.inl h
          · have : q = (nb, some cur) := List.mem_singleton.mp h
            subst this
            exact Or.inr ⟨List.mem_cons_self nb rest, rfl⟩
        · exact Or.inr ⟨List.mem_cons_of_mem nb h1, h2⟩

/-- Queue additions made by the neighbour loop are neighbours. -/
theorem opathExpand_adds (cur : String) (dcur : Nat) (target : String) :
    ∀ (nbs : List String) (prev : List (String × Option String))
      (depths : List (String × Nat)) (adds : List String) (x : String),
    x ∈ (opathExpand cur dcur target nbs prev depths adds).2.2.2 →
    x ∈ adds ∨ x ∈ nbs := by
  intro nbs
  induction nbs with
  | nil =>
    intro prev depths adds x hx
    exact Or.inl hx
  | cons nb rest ih =>
    intro prev depths adds x hx
    rw [opathExpand] at hx
    by_cases hm : nb ∈ prev.map Prod.fst
    · rw [if_pos hm] at hx
      rcases ih prev depths adds x hx with h | h
      · exact Or.inl h
      · exact Or.inr (List.mem_cons_of_mem nb h)
    · rw [if_neg hm] at hx
      by_cases ht : nb = target
      · rw [if_pos ht] at hx
        exact Or.inl hx
      · rw [if_neg ht] at hx
        rcases ih _ _ _ x hx with h | h
        · rcases List.mem_append.mp h with h | h
          · exact Or.inl h
          · exact Or.inr (List.mem_cons.mpr (Or.inl (List.mem_singleton.mp h)))
        · exact Or.inr (List.mem_cons_of_mem nb h)

/-- All titles recorded by the path BFS (keys and parents of the
predecessor map) stay inside the universe of known titles. -/
theorem opath_prev_closed (adj : String → List String) (target : String)
    (maxD : Nat) (univ : List String)
    (hadj : ∀ t : String, ∀ n ∈ adj t, n ∈ univ) :
    ∀ (fuel : Nat) (queue : List String) (prev : List (String × Option String))
      (depths : List (String × Nat)),
    (∀ x ∈ queue, x ∈ univ) →
    (∀ q ∈ prev, q.1 ∈ univ ∧ ∀ par, q.2 = some par → par ∈ univ) →
    ∀ q ∈ (opath adj target maxD fuel queue prev depths).2,
      q.1 ∈ univ ∧ ∀ par, q.2 = some par → par ∈ univ := by
  intro fuel
  induction fuel with
  | zero =>
    intro queue prev depths hqu hpr q hq
    cases queue with
    | nil => exact hpr q hq
    | cons cur rest => exact hpr q hq
  | succ fuel ih =>
    intro queue prev depths hqu hpr q hq
    cases queue with
    | nil => exact hpr q hq
    | cons cur rest =>
      rw [opath] at hq
      by_cases hd : maxD ≤ depthOf depths cur
      · rw [if_pos hd] at hq
        exact ih rest prev depths (fun x hx => hqu x (List.mem_cons_of_mem cur hx)) hpr q hq
      · rw [if_neg hd] at hq
        have hcur : cur ∈ univ := hqu cur (List.mem_cons_self cur rest)
        have hprev2 : ∀ p ∈ (opathExpand cur (depthOf depths cur) target (adj cur)
            prev depths []).2.1, p.1 ∈ univ ∧ ∀ par, p.2 = some par → par ∈ univ := by
          intro p hp
          rcases opathExpand_prev_entries cur _ target (adj cur) prev depths [] p hp with
            hp | ⟨h1, h2⟩
          · exact hpr p hp
          · refine ⟨hadj cur p.1 h1, fun par hpar => ?_⟩
            rw [h2] at hpar
            injection hpar with hpar
            rw [← hpar]
            exact hcur
        by_cases hfound : (opathExpand cur (depthOf depths cur) target (adj cur)
            prev depths []).1 = true
        · rw [if_pos hfound] at hq
          exact hprev2 q hq
        · rw [if_neg hfound] at hq
          refine ih _ _ _ ?_ hprev2 q hq
          intro x hx
          rcases List.mem_append.mp hx with hx | hx
          · exact hqu x (List.mem_cons_of_mem cur hx)
          · rcases opathExpand_adds cur _ target (adj cur) prev depths [] x hx with
              hx | hx
            · exact absurd hx (List.not_mem_nil x)
            · exact hadj cur x hx

/-- Reconstructed path titles lie in the universe. -/
theorem walkPrev_mem_univ (prev : List (String × Option String)) (univ : List String)
    (hprev : ∀ q ∈ prev, q.1 ∈ univ ∧ ∀ par, q.2 = some par → par ∈ univ) :
    ∀ (fuel : Nat) (cur : String), cur ∈ univ →
    ∀ x ∈ walkPrev prev fuel cur, x ∈ univ := by
  intro fuel
  induction fuel with
  | zero =>
    intro cur hcur x hx
    exact absurd hx (List.not_mem_nil x)
  | succ fuel ih =>
    intro cur hcur x hx
    rw [walkPrev] at hx
    rcases List.mem_cons.mp hx with rfl | hx
    · exact hcur
    · cases hfind : prev.find? fun q => q.1 == cur with
      | none =>
        rw [hfind] at hx
        exact absurd hx (List.not_mem_nil x)
      | some q =>
        rw [hfind] at hx
        have hqm : q ∈ prev := List.mem_of_find?_eq_some hfind
        obtain ⟨qk, qv⟩ := q
        cases qv with
        | none => exact absurd hx (List.not_mem_nil x)
        | some parent =>
          have hpar : parent ∈ univ := (hprev (qk, some parent) hqm).2 parent rfl
          exact ih parent hpar x hx

theorem consecPairs_mem : ∀ (p : List String) (a b : String),
    (a, b) ∈ consecPairs p → a ∈ p ∧ b ∈ p := by
  intro p
  induction p with
  | nil =>
    intro a b h
    exact absurd h (List.not_mem_nil _)
  | cons x rest ih =>
    intro a b h
    cases rest with
    | nil => exact absurd h (List.not_mem_nil _)
    | cons y rest2 =>
      rw [consecPairs] at h
      rcases List.mem_cons.mp h with he | h
      · injection he with e1 e2
        subst e1
        subst e2
        exact ⟨List.mem_cons_self a _, List.mem_cons_of_mem a (List.mem_cons_self b _)⟩
      · rcases ih a b h with ⟨h1, h2⟩
        exact ⟨List.mem_cons_of_mem x h1, List.mem_cons_of_mem x h2⟩

/-- Every edge of the offline path result has both endpoints among the
returned node ids. -/
theorem offPathRun_edges_closed (input : PInput) (s t : String) (maxDepth : Int) :
    ∀ e ∈ (offPathRun input s t maxDepth).edges,
      (∃ n ∈ (offPathRun input s t maxDepth).nodes, n.id = e.source) ∧
      (∃ n ∈ (offPathRun input s t maxDepth).nodes, n.id = e.target) := by
  intro e he
  rw [offPathRun] at he ⊢
  by_cases hk : s ∈ pKeys input ∧ t ∈ pKeys input
  · rw [if_pos hk] at he ⊢
    set R := opath (offAdj input) t (clampNat 1 10 maxDepth) (input.length + 2)
      [s] [(s, none)] [(s, 0)] with hR
    by_cases hfound : R.1 = true
    · rw [if_pos hfound] at he ⊢
      set path := (walkPrev R.2 (input.length + 2) t).reverse with hpath
      have hpathuniv : ∀ x ∈ path, x ∈ pKeys input := by
        intro x hx
        rw [hpath, List.mem_reverse] at hx
        have hprevgood : ∀ q ∈ R.2, q.1 ∈ pKeys input ∧
            ∀ par, q.2 = some par → par ∈ pKeys input := by
          intro q hq
          refine opath_prev_closed (offAdj input) t (clampNat 1 10 maxDepth)
            (pKeys input) (fun u n hn => offAdj_sub_keys input u n hn)
            (input.length + 2) [s] [(s, none)] [(s, 0)] ?_ ?_ q hq
          · intro y hy
            rw [List.mem_singleton.mp hy]
            exact hk.1
          · intro q2 hq2
            rw [List.mem_singleton.mp hq2]
            exact ⟨hk.1, fun par hpar => Option.noConfusion hpar⟩
        exact walkPrev_mem_univ R.2 (pKeys input) hprevgood (input.length + 2) t hk.2 x hx
      rcases List.mem_map.mp he with ⟨q, hq, heq⟩
      rcases consecPairs_mem path q.1 q.2 (by
        cases q with
        | mk a b => exact hq) with ⟨h1, h2⟩
      subst heq
      constructor
      · rcases offNode?_some_of_key input q.1 (hpathuniv q.1 h1) with ⟨n, hn, hid⟩
        exact ⟨n, List.mem_filterMap.mpr ⟨q.1, h1, hn⟩, hid⟩
      · rcases offNode?_some_of_key input q.2 (hpathuniv q.2 h2) with ⟨n, hn, hid⟩
        exact ⟨n, List.mem_filterMap.mpr ⟨q.2, h2, hn⟩, hid⟩
    · rw [if_neg hfound] at he
      exact absurd he (List.not_mem_nil e)
  · rw [if_neg hk] at he
    exact absurd he (List.not_mem_nil e)

/-! ### Sanitization, path formatting and the offline full graph -/

theorem sanitize_edges_closed (d : QueryResult) :
    ∀ e ∈ (sanitize d).edges,
      (∃ n ∈ (sanitize d).nodes, n.id = e.source) ∧
      (∃ n ∈ (sanitize d).nodes, n.id = e.target) := by
  intro e he
  rcases List.mem_filter.mp he with ⟨-, hcond⟩
  rcases of_decide_eq_true hcond with ⟨h1, h2⟩
  constructor
  · rcases List.mem_map.mp h1 with ⟨n, hn, hid⟩
    exact ⟨n, hn, hid⟩
  · rcases List.mem_map.mp h2 with ⟨n, hn, hid⟩
    exact ⟨n, hn, hid⟩

/-- The node ids of the `shortest_path` record: the path titles that are
non-empty and present in the store. -/
theorem pShortestPathResult_mem_nodes (g : KG) (p : List String) (x : String) :
    (∃ n ∈ (pShortestPathResult g p).nodes, n.id = x) ↔
      x ∈ p ∧ x ≠ "" ∧ x ∈ g.titles := by
  rw [pShortestPathResult]
  constructor
  · rintro ⟨n, hn, hid⟩
    rcases List.mem_filterMap.mp hn with ⟨t, ht, he⟩
    rcases List.mem_filter.mp ((mem_pydedup _ t).mp ht) with ⟨htp, htne⟩
    cases hfind : assocFind g.nodes t with
    | none => simp [hfind] at he
    | some nd =>
      rw [hfind] at he
      injection he with he
      have hidt : n.id = t := by rw [← he]
      have htm : t ∈ g.titles := by
        by_contra hc
        rw [assocFind_eq_none_of_not_mem g.nodes t hc] at hfind
        exact Option.noConfusion hfind
      rw [← hid, hidt]
      exact ⟨htp, by simpa using htne, htm⟩
  · rintro ⟨hp, hne, hmem⟩
    rcases assocFind_isSome_of_mem g.nodes x hmem with ⟨nd, hnd⟩
    refine ⟨⟨x, x, nd.summary, nd.url, nd.categories⟩, ?_, rfl⟩
    refine List.mem_filterMap.mpr ⟨x, ?_, by rw [hnd]; rfl⟩
    rw [mem_pydedup]
    exact List.mem_filter.mpr ⟨hp, by simpa using hne⟩

/-- Both endpoints of every offline full-graph edge are keys. -/
theorem mem_offEdges_keys (input : PInput) (e : ExpEdge) (h : e ∈ offEdges input) :
    e.source ∈ pKeys input ∧ e.target ∈ pKeys input := by
  rcases List.mem_append.mp h with h | h
  · rcases List.mem_flatMap.mp h with ⟨p, hp, hm⟩
    rcases List.mem_filterMap.mp hm with ⟨r, hr, he⟩
    split at he
    · rename_i hc
      injection he with he
      rw [← he]
      exact hc
    · exact Option.noConfusion he
  · rcases List.mem_flatMap.mp h with ⟨p, hp, hm⟩
    rcases List.mem_filterMap.mp hm with ⟨l, hl, he⟩
    split at he
    · rename_i hc
      injection he with he
      rw [← he]
      exact ⟨List.mem_map.mpr ⟨p, hp, rfl⟩, hc⟩
    · exact Option.noConfusion he

theorem offNodes_ids (input : PInput) (x : String) :
    (∃ n ∈ offNodes input, n.id = x) ↔ x ∈ pKeys input := by
  constructor
  · rintro ⟨n, hn, hid⟩
    rcases List.mem_map.mp hn with ⟨p, hp, he⟩
    rw [← hid, ← he]
    exact List.mem_map.mpr ⟨p, hp, rfl⟩
  · intro hx
    rcases List.mem_map.mp hx with ⟨p, hp, he⟩
    exact ⟨⟨p.1, p.1, p.2.orig.summary, p.2.orig.url, p.2.orig.categories⟩,
      List.mem_map.mpr ⟨p, hp, rfl⟩, he⟩

/-! ### Clamp congruence -/

theorem clampNat_clamp (lo hi : Nat) (x : Int) (h : (lo : Int) ≤ hi) :
    clampNat lo hi (max (lo : Int) (min x hi)) = clampNat lo hi x := by
  unfold clampNat
  congr 1
  omega

theorem pExportSubgraph_depth_congr (g : KG) (root : String)
    (rt : Option (List String)) {d₁ d₂ : Int} (h : pSubDepth d₁ = pSubDepth d₂) :
    pExportSubgraph g root d₁ rt = pExportSubgraph g root d₂ rt := by
  simp only [pExportSubgraph, h]

theorem pShortestPathWitness_depth_congr (g : KG) (s t : String) (p : List String)
    {d₁ d₂ : Int} (h : pPathDepth d₁ = pPathDepth d₂) :
    pShortestPathWitness g s t d₁ p ↔ pShortestPathWitness g s t d₂ p := by
  unfold pShortestPathWitness
  rw [h]

theorem offSubgraphRun_depth_congr (input : PInput) (root : String)
    {d₁ d₂ : Int} (h : clampNat 1 5 d₁ = clampNat 1 5 d₂) :
    offSubgraphRun input root d₁ = offSubgraphRun input root d₂ := by
  unfold offSubgraphRun
  rw [h]

theorem offPathRun_depth_congr (input : PInput) (s t : String)
    {d₁ d₂ : Int} (h : clampNat 1 10 d₁ = clampNat 1 10 d₂) :
    offPathRun input s t d₁ = offPathRun input s t d₂ := by
  unfold offPathRun
  rw [h]

/-! ### The directed dataset graph (for "forms an acyclic graph") -/

/-- The directed successors of a title in the source dataset: relationship
triples out of it and its links. -/
def dSucc (input : PInput) (t : String) : List String :=
  (input.flatMap fun p => p.2.rels.filterMap fun r =>
      if r.1 = t then some r.2.1 else none)
    ++ (input.flatMap fun p => if p.1 = t then p.2.orig.links else [])

/-- The source dataset forms an acyclic directed graph: no key reaches
itself through a successor within the number of keys. -/
def acyclicInput (input : PInput) : Prop :=
  ∀ t ∈ pKeys input, ∀ n ∈ dSucc input t,
    t ∉ ball (dSucc input) n (pKeys input).length

instance (input : PInput) : Decidable (acyclicInput input) := by
  unfold acyclicInput
  infer_instance

/-! ## Concrete datasets used by the claims -/

def c3Chain : PInput :=
  [("A0", ⟨⟨"", "", [], ["A1"]⟩, []⟩), ("A1", ⟨⟨"", "", [], ["A2"]⟩, []⟩),
   ("A2", ⟨⟨"", "", [], ["A3"]⟩, []⟩), ("A3", ⟨⟨"", "", [], ["A4"]⟩, []⟩),
   ("A4", ⟨⟨"", "", [], ["A5"]⟩, []⟩), ("A5", ⟨⟨"", "", [], ["A6"]⟩, []⟩),
   ("A6", ⟨⟨"", "", [], ["A7"]⟩, []⟩), ("A7", ⟨⟨"", "", [], ["A8"]⟩, []⟩),
   ("A8", ⟨⟨"", "", [], ["A9"]⟩, []⟩), ("A9", ⟨⟨"", "", [], []⟩, []⟩)]

def c4Good : PInput := [("A", ⟨⟨"", "", [], []⟩, []⟩)]

def c5Bad : PInput :=
  [("A", ⟨⟨"", "", [], []⟩, [("A", "", "RELATES_TO"), ("", "B", "RELATES_TO")]⟩),
   ("", ⟨⟨"", "", [], []⟩, []⟩),
   ("B", ⟨⟨"", "", [], []⟩, []⟩)]

def c5Good : PInput :=
  [("A", ⟨⟨"", "", [], ["B"]⟩, [("A", "B", "USES")]⟩),
   ("B", ⟨⟨"", "", [], []⟩, []⟩)]

def c7Bad : PInput := [("A", ⟨⟨"", "", [], []⟩, [("X", "B", "RELATES_TO")]⟩)]

def c7Good : PInput := [("A", ⟨⟨"sum", "url", ["c"], []⟩, [("A", "B", "RELATES_TO")]⟩)]

def c9Data : PInput :=
  [("Algebra", ⟨⟨"", "", [], ["Calculus"]⟩, []⟩),
   ("Calculus", ⟨⟨"", "", [], []⟩, []⟩)]

def c10Data : PInput := [("A", ⟨⟨"", "", [], []⟩, []⟩)]

/-! ## The claims -/

/-- C2: running the loader's ingestion twice on identical input yields a
graph whose node set (titles together with their observable metadata) and
edge set (`(source, target, type)` keys) are identical to those produced
by running it once — re-running merges onto existing nodes and edges
instead of duplicating them. -/
theorem C2_load_idempotent (input : PInput) :
    (∀ t : String,
      t ∈ (loadProcessedData input (loadProcessedData input KG.empty)).titles ↔
        t ∈ (loadProcessedData input KG.empty).titles) ∧
    (∀ t : String,
      (loadProcessedData input (loadProcessedData input KG.empty)).viewNode t =
        (loadProcessedData input KG.empty).viewNode t) ∧
    (∀ k : String × String × String,
      k ∈ (loadProcessedData input (loadProcessedData input KG.empty)).edgeKeys ↔
        k ∈ (loadProcessedData input KG.empty).edgeKeys) := by
  have hc : ∀ tgt : String,
      (tgt ≠ "" ∨ tgt ∈ (loadProcessedData input KG.empty).titles ∨ tgt ∈ pKeys input) ↔
        (tgt ≠ "" ∨ tgt ∈ KG.empty.titles ∨ tgt ∈ pKeys input) := by
    intro tgt
    constructor
    · rintro (h | h | h)
      · exact Or.inl h
      · rw [mem_titles_load] at h
        rcases h with h | h | ⟨p, hp, r, hr, rfl, hne⟩
        · exact absurd h (List.not_mem_nil tgt)
        · exact Or.inr (Or.inr h)
        · exact Or.inl hne
      · exact Or.inr (Or.inr h)
    · rintro (h | h | h)
      · exact Or.inl h
      · exact absurd h (List.not_mem_nil tgt)
      · exact Or.inr (Or.inr h)
  refine ⟨?_, ?_, ?_⟩
  · intro t
    rw [mem_titles_load]
    constructor
    · rintro (h | h | h)
      · exact h
      · rw [mem_titles_load]
        exact Or.inr (Or.inl h)
      · rw [mem_titles_load]
        exact Or.inr (Or.inr h)
    · intro h
      exact Or.inl h
  · intro t
    rw [loadProcessedData_eq_applyOps input (loadProcessedData input KG.empty),
      viewNode_applyOps, loadProcessedData_eq_applyOps input KG.empty,
      viewNode_applyOps]
    have hempty : KG.empty.viewNode t = none := rfl
    rw [hempty]
    cases lastPut t (loadOps input) <;> simp [Option.orElse]
  · intro k
    constructor
    · intro h
      rw [mem_edgeKeys_load] at h
      rcases h with h | ⟨p, hp, r, hr, hk, hcond⟩ | h
      · exact h
      · rw [mem_edgeKeys_load]
        exact Or.inr (Or.inl ⟨p, hp, r, hr, hk, (hc r.2.1).mp hcond⟩)
      · rw [mem_edgeKeys_load]
        exact Or.inr (Or.inr h)
    · intro h
      rw [mem_edgeKeys_load]
      exact Or.inl h

/-- C3: counterexample to the claim as stated.  The offline backend's
shortest-path fallback clamps `max_depth` to `[1, 10]`, not `[1, 8]`: on a
ten-node chain, a request with `max_depth = 9` finds the nine-hop path,
whereas behaving "as if `max_depth` were clamped into `[1, 8]`" would
return the empty result. -/
theorem C3_counterexample :
    (offPathRun c3Chain "A0" "A9" 9).nodes ≠ [] ∧
    offPathRun c3Chain "A0" "A9" (max 1 (min 9 8)) = ⟨[], []⟩ := by
  constructor
  · decide
  · decide

/-- C3 (amended): `export_subgraph` behaves as if `depth` were clamped
into `[1, 5]` in both backends, and the persistent `shortest_path` behaves
as if `max_depth` were clamped into `[1, 8]`; the offline shortest-path
fallback instead clamps `max_depth` into `[1, 10]`. -/
theorem C3_depth_clamps :
    (∀ (g : KG) (root : String) (rt : Option (List String)) (d : Int),
      pExportSubgraph g root d rt = pExportSubgraph g root (max 1 (min d 5)) rt) ∧
    (∀ (g : KG) (s t : String) (p : List String) (d : Int),
      pShortestPathWitness g s t d p ↔ pShortestPathWitness g s t (max 1 (min d 8)) p) ∧
    (∀ (input : PInput) (root : String) (d : Int),
      offSubgraphRun input root d = offSubgraphRun input root (max 1 (min d 5))) ∧
    (∀ (input : PInput) (s t : String) (d : Int),
      offPathRun input s t d = offPathRun input s t (max 1 (min d 10))) := by
  refine ⟨?_, ?_, ?_, ?_⟩
  · intro g root rt d
    exact pExportSubgraph_depth_congr g root rt (by unfold pSubDepth clampNat; omega)
  · intro g s t p d
    exact pShortestPathWitness_depth_congr g s t p (by unfold pPathDepth clampNat; omega)
  · intro input root d
    exact offSubgraphRun_depth_congr input root (by unfold clampNat; omega)
  · intro input s t d
    exact offPathRun_depth_congr input s t (by unfold clampNat; omega)

/-- C6: counterexample to the claim as stated.  The hyphen is replaced by
an underscore before the strip, so `normalize("is-a")` is `IS_A`, not
`ISA`. -/
theorem C6_counterexample : normType "is-a" = "IS_A" ∧ normType "is-a" ≠ "ISA" := by
  constructor
  · decide
  · decide

/-- C6 (amended): the normalization upper-cases, replaces hyphens with
underscores, strips all characters outside `[A-Z_]` and falls back to
`RELATES_TO` on an empty result — so its output is never empty and
consists only of upper-case letters and underscores; in particular
`normalize("is-a") = IS_A`, `normalize("") = RELATES_TO` and
`normalize("!!!") = RELATES_TO`. -/
theorem C6_normalization :
    (∀ s : String,
      normType s = (if normTypeRaw s = "" then "RELATES_TO" else normTypeRaw s) ∧
      normType s ≠ "" ∧ (normType s).data.all keepChar = true) ∧
    normType "is-a" = "IS_A" ∧ normType "" = "RELATES_TO" ∧
    normType "!!!" = "RELATES_TO" := by
  refine ⟨?_, by decide, by decide, by decide⟩
  intro s
  refine ⟨rfl, (normType_chars s).1, ?_⟩
  rw [List.all_eq_true]
  exact (normType_chars s).2

/-- C8: the claim is right and the code is wrong — `create_concept_node`
and `create_relationship` run `SET …created_at = datetime()` on every
`MERGE`, both on create and on match, so `created_at` is overwritten on
every re-upsert and re-merge instead of being preserved.  Evaluated here:
upserting the same title twice moves its `created_at` from clock 0 to
clock 1, and re-merging the same edge moves its `created_at` from clock 2
to clock 3. -/
theorem C8_createdAt_overwritten :
    ((assocFind (createConceptNode "A" "s" "u" [] KG.empty).nodes "A").map
      NodeData.createdAt = some 0) ∧
    ((assocFind (createConceptNode "A" "s" "u" []
        (createConceptNode "A" "s" "u" [] KG.empty)).nodes "A").map
      NodeData.createdAt = some 1) ∧
    ((createRelationship "A" "B" "RELATES_TO"
        (createConceptNode "B" "" "" []
          (createConceptNode "A" "" "" [] KG.empty))).edges.map
      EdgeRec.createdAt = [2]) ∧
    ((createRelationship "A" "B" "RELATES_TO"
        (createRelationship "A" "B" "RELATES_TO"
          (createConceptNode "B" "" "" []
            (createConceptNode "A" "" "" [] KG.empty)))).edges.map
      EdgeRec.createdAt = [3]) := by
  refine ⟨?_, ?_, ?_, ?_⟩ <;> decide

/-- C10: in the offline backend, the shortest path from a known title to
itself is the empty result: the target already has a predecessor entry
when the search starts, so the `found` flag is never set and the trivial
zero-edge path is never returned. -/
theorem C10_self_path (input : PInput) (s : String) (maxDepth : Int)
    (h : s ∈ pKeys input) :
    offPathRun input s s maxDepth = ⟨[], []⟩ :=
  offPathRun_self_aux input s maxDepth h

/-- C10 witness: a concrete one-node dataset. -/
theorem C10_self_path_witness :
    "A" ∈ pKeys c10Data ∧ offPathRun c10Data "A" "A" 3 = ⟨[], []⟩ :=
  ⟨by decide, C10_self_path c10Data "A" 3 (by decide)⟩

/-- C1: counterexample to the claim as stated.  On the acyclic one-entry
dataset whose root `A` has no neighbour, the offline subgraph contains
the root while the persistent `export_subgraph` returns the empty result
(the `UNWIND rels AS r` on the empty relationship list eliminates every
row before the final `RETURN`), so the two node sets differ. -/
theorem C1_counterexample :
    acyclicInput c4Good ∧ "A" ∈ pKeys c4Good ∧
    (∃ n ∈ (offSubgraphRun c4Good "A" 2).nodes, n.id = "A") ∧
    pExportSubgraph (loadProcessedData c4Good KG.empty) "A" 2 none =
      Except.ok ⟨[], []⟩ := by
  refine ⟨by decide, by decide, by decide, ?_⟩
  exact pExportSubgraph_ok _ _ _ _ (by decide)

/-- C1 (amended): the two backends never return the same node set for a
root present in the dataset when the persistent query returns at all —
its node set is then empty, the root lost to the empty `UNWIND`, while
the offline node set contains the root; the served results agree only
because the web route falls back to the offline BFS whenever the query
raises (any root with an incident allowed relationship), in which case
what is served is the offline result itself. -/
theorem C1_backend_divergence :
    (∀ (input : PInput) (root : String) (depth : Int) (res : QueryResult),
      root ∈ pKeys input →
      pExportSubgraph (loadProcessedData input KG.empty) root depth none =
        Except.ok res →
      res.nodes = [] ∧ ∃ n ∈ (offSubgraphRun input root depth).nodes, n.id = root) ∧
    (∀ (g : KG) (input : PInput) (root : String) (depth : Int),
      pExportSubgraph g root depth none = Except.error () →
      apiSubgraphServed g input root depth = offSubgraphRoute input root depth) := by
  constructor
  · intro input root depth res hroot hok
    refine ⟨by rw [pExportSubgraph_ok_empty _ _ _ _ _ hok], ?_⟩
    exact (offSubgraphRun_nodes input root depth hroot root).mpr
      (root_mem_ball _ root _)
  · intro g input root depth herr
    simp only [apiSubgraphServed, herr]

/-- C1 witness: at the isolated root `A` the persistent result is empty
while the offline one contains `A`; at the dataset with the edge `A — B`
the query raises and the route serves the offline result. -/
theorem C1_backend_divergence_witness :
    ("A" ∈ pKeys c4Good ∧
      ((⟨[], []⟩ : QueryResult).nodes = [] ∧
        ∃ n ∈ (offSubgraphRun c4Good "A" 2).nodes, n.id = "A")) ∧
    (pExportSubgraph (loadProcessedData c5Good KG.empty) "A" 2 none =
        Except.error () ∧
      apiSubgraphServed (loadProcessedData c5Good KG.empty) c5Good "A" 2 =
        offSubgraphRoute c5Good "A" 2) :=
  ⟨⟨by decide,
      C1_backend_divergence.1 c4Good "A" 2 ⟨[], []⟩ (by decide)
        (pExportSubgraph_ok _ _ _ _ (by decide))⟩,
    ⟨pExportSubgraph_raises _ _ _ _ (by decide) (by decide),
      C1_backend_divergence.2 (loadProcessedData c5Good KG.empty) c5Good "A" 2
        (pExportSubgraph_raises _ _ _ _ (by decide) (by decide))⟩⟩

/-- C4: the claim is right about the offline backend — its BFS always
emits the root — but the persistent code is wrong: for a root with no
matching relationship the query's `UNWIND rels AS r` on the empty list
eliminates every row, so `export_subgraph` returns empty node and edge
sets without the root, and for a root with an incident allowed
relationship the query raises (`startNode` applied to the list-typed
variable-length binding), so the root is never returned by the
persistent backend at all. -/
theorem C4_root_inclusion :
    (∀ (input : PInput) (root : String) (depth : Int),
      root ∈ pKeys input →
      ∃ n ∈ (offSubgraphRun input root depth).nodes, n.id = root) ∧
    (∀ (g : KG) (root : String) (depth : Int) (rt : Option (List String)),
      pNbrs g (allowedOf rt) root = [] →
      pExportSubgraph g root depth rt = Except.ok ⟨[], []⟩) ∧
    (∀ (g : KG) (root : String) (depth : Int) (rt : Option (List String)),
      root ∈ g.titles → pNbrs g (allowedOf rt) root ≠ [] →
      pExportSubgraph g root depth rt = Except.error ()) := by
  refine ⟨?_, ?_, ?_⟩
  · intro input root depth hroot
    exact (offSubgraphRun_nodes input root depth hroot root).mpr
      (root_mem_ball _ root _)
  · intro g root depth rt h
    exact pExportSubgraph_ok g root depth rt h
  · intro g root depth rt hroot h
    exact pExportSubgraph_raises g root depth rt hroot h

/-- C4 witness: a one-node graph whose root has zero neighbours, and a
two-node graph whose root has one. -/
theorem C4_root_inclusion_witness :
    ("A" ∈ pKeys c4Good ∧
      ∃ n ∈ (offSubgraphRun c4Good "A" 2).nodes, n.id = "A") ∧
    ("A" ∈ (loadProcessedData c4Good KG.empty).titles ∧
      pExportSubgraph (loadProcessedData c4Good KG.empty) "A" 2 none =
        Except.ok ⟨[], []⟩) ∧
    pExportSubgraph (loadProcessedData c5Good KG.empty) "A" 2 none =
      Except.error () :=
  ⟨⟨by decide, C4_root_inclusion.1 c4Good "A" 2 (by decide)⟩,
    ⟨by decide,
      C4_root_inclusion.2.1 (loadProcessedData c4Good KG.empty) "A" 2 none
        (by decide)⟩,
    C4_root_inclusion.2.2 (loadProcessedData c5Good KG.empty) "A" 2 none
      (by decide) (by decide)⟩

/-- C5: counterexample to the claim as stated.  On a graph whose only
path from `A` to `B` passes through a concept titled by the empty string,
the `shortest_path` result — returned by `/api/path` without
sanitization — contains an edge whose target is not in the returned node
set (the empty-titled node is dropped while its incident edges are
kept). -/
theorem C5_counterexample :
    pShortestPathWitness (loadProcessedData c5Bad KG.empty) "A" "B" 6 ["A", "", "B"] ∧
    (∃ e ∈ (pShortestPathResult (loadProcessedData c5Bad KG.empty) ["A", "", "B"]).edges,
      ¬ ∃ n ∈ (pShortestPathResult (loadProcessedData c5Bad KG.empty)
          ["A", "", "B"]).nodes, n.id = e.target) := by
  refine ⟨by decide, by decide⟩

/-- C5 (amended): every edge in a returned result has both endpoints in
that result's node set for the full export and the subgraph in both
backends and for the offline shortest path; for the persistent shortest
path it holds provided no title on the path is empty. -/
theorem C5_edge_validity :
    (∀ g : KG, ∀ e ∈ (apiGraphP g).edges,
      (∃ n ∈ (apiGraphP g).nodes, n.id = e.source) ∧
      (∃ n ∈ (apiGraphP g).nodes, n.id = e.target)) ∧
    (∀ (g : KG) (root : String) (depth : Int), ∀ e ∈ (apiSubgraphP g root depth).edges,
      (∃ n ∈ (apiSubgraphP g root depth).nodes, n.id = e.source) ∧
      (∃ n ∈ (apiSubgraphP g root depth).nodes, n.id = e.target)) ∧
    (∀ (g : KG) (s t : String) (maxDepth : Int) (p : List String),
      pShortestPathWitness g s t maxDepth p → (∀ x ∈ p, x ≠ "") →
      ∀ e ∈ (pShortestPathResult g p).edges,
        (∃ n ∈ (pShortestPathResult g p).nodes, n.id = e.source) ∧
        (∃ n ∈ (pShortestPathResult g p).nodes, n.id = e.target)) ∧
    (∀ input : PInput, ∀ e ∈ (apiGraphOff input).edges,
      (∃ n ∈ (apiGraphOff input).nodes, n.id = e.source) ∧
      (∃ n ∈ (apiGraphOff input).nodes, n.id = e.target)) ∧
    (∀ (input : PInput) (root : String) (depth : Int), root ∈ pKeys input →
      ∀ e ∈ (offSubgraphRun input root depth).edges,
        (∃ n ∈ (offSubgraphRun input root depth).nodes, n.id = e.source) ∧
        (∃ n ∈ (offSubgraphRun input root depth).nodes, n.id = e.target)) ∧
    (∀ (input : PInput) (s t : String) (maxDepth : Int),
      ∀ e ∈ (offPathRun input s t maxDepth).edges,
        (∃ n ∈ (offPathRun input s t maxDepth).nodes, n.id = e.source) ∧
        (∃ n ∈ (offPathRun input s t maxDepth).nodes, n.id = e.target)) := by
  refine ⟨?_, ?_, ?_, ?_, ?_, ?_⟩
  · intro g e he
    exact sanitize_edges_closed (exportGraphData g) e he
  · intro g root depth e he
    cases hq : pExportSubgraph g root depth none with
    | ok d =>
      have hd : apiSubgraphP g root depth = sanitize d := by
        simp only [apiSubgraphP, hq]
      rw [hd] at he ⊢
      exact sanitize_edges_closed d e he
    | error u =>
      have hd : apiSubgraphP g root depth = ⟨[], []⟩ := by
        simp only [apiSubgraphP, hq]
      rw [hd] at he
      exact absurd he (List.not_mem_nil e)
  · intro g s t maxDepth p hwit hne e he
    rcases List.mem_map.mp he with ⟨q, hq, heq⟩
    obtain ⟨q1, q2⟩ := q
    rcases consecPairs_mem p q1 q2 hq with ⟨h1, h2⟩
    have hall := hwit.2.2.2.2.1
    subst heq
    constructor
    · exact (pShortestPathResult_mem_nodes g p q1).mpr ⟨h1, hne q1 h1, hall q1 h1⟩
    · exact (pShortestPathResult_mem_nodes g p q2).mpr ⟨h2, hne q2 h2, hall q2 h2⟩
  · intro input e he
    rcases mem_offEdges_keys input e he with ⟨h1, h2⟩
    exact ⟨(offNodes_ids input e.source).mpr h1, (offNodes_ids input e.target).mpr h2⟩
  · intro input root depth hroot e he
    exact offSubgraphRun_edges_closed input root depth hroot e he
  · intro input s t maxDepth e he
    exact offPathRun_edges_closed input s t maxDepth e he

/-- C5 witness: a two-node dataset with a typed edge and a link; each
operation with a non-empty result is checked at its concrete edge (the
persistent subgraph part needs no instance: its sanitized result is
closed whatever the query returns, and its edge list is empty on this
code path). -/
theorem C5_edge_validity_witness :
    ((∃ n ∈ (apiGraphP (loadProcessedData c5Good KG.empty)).nodes, n.id = "A") ∧
      (∃ n ∈ (apiGraphP (loadProcessedData c5Good KG.empty)).nodes, n.id = "B")) ∧
    ((∃ n ∈ (pShortestPathResult (loadProcessedData c5Good KG.empty) ["A", "B"]).nodes,
        n.id = "A") ∧
      (∃ n ∈ (pShortestPathResult (loadProcessedData c5Good KG.empty) ["A", "B"]).nodes,
        n.id = "B")) ∧
    ((∃ n ∈ (apiGraphOff c5Good).nodes, n.id = "A") ∧
      (∃ n ∈ (apiGraphOff c5Good).nodes, n.id = "B")) ∧
    ((∃ n ∈ (offSubgraphRun c5Good "A" 2).nodes, n.id = "A") ∧
      (∃ n ∈ (offSubgraphRun c5Good "A" 2).nodes, n.id = "B")) ∧
    ((∃ n ∈ (offPathRun c5Good "A" "B" 6).nodes, n.id = "A") ∧
      (∃ n ∈ (offPathRun c5Good "A" "B" 6).nodes, n.id = "B")) :=
  ⟨C5_edge_validity.1 (loadProcessedData c5Good KG.empty)
      ⟨"A", "B", "USES"⟩ (by decide),
    C5_edge_validity.2.2.1 (loadProcessedData c5Good KG.empty) "A" "B" 6 ["A", "B"]
      (by decide) (by decide)
      ⟨"A", "B", edgeTypeOf (loadProcessedData c5Good KG.empty) ("A", "B")⟩ (by decide),
    C5_edge_validity.2.2.2.1 c5Good ⟨"A", "B", "USES"⟩ (by decide),
    C5_edge_validity.2.2.2.2.1 c5Good "A" 2 (by decide)
      ⟨"A", "B", "RELATED"⟩ (by decide),
    C5_edge_validity.2.2.2.2.2 c5Good "A" "B" 6 ⟨"A", "B", "RELATED"⟩ (by decide)⟩

/-- C7: counterexample to the claim as stated.  The triple
`(X, B, RELATES_TO)` ingested under the entry `A` has the source endpoint
`X` absent from the mapping; the loader substitutes the enclosing title
`A` for it instead of auto-creating it, so `X` does not exist as a node
after ingestion. -/
theorem C7_counterexample :
    (∃ p ∈ c7Bad, ∃ r ∈ p.2.rels, r.1 = "X") ∧
    "X" ∉ (loadProcessedData c7Bad KG.empty).titles := by
  refine ⟨by decide, by decide⟩

/-- C7 (amended): for every ingested relationship triple with a non-empty
target, the resolved source (the triple's source when it is a key, else
the enclosing entry title) and the target both exist as nodes after
ingestion, and a target absent from the top-level mapping is created with
empty metadata. -/
theorem C7_referential_autocreation (input : PInput) (title : String) (pd : PData)
    (r : String × String × String)
    (hp : (title, pd) ∈ input) (hr : r ∈ pd.rels) (hne : r.2.1 ≠ "") :
    ((if r.1 ∈ pKeys input then r.1 else title) ∈
        (loadProcessedData input KG.empty).titles) ∧
    (r.2.1 ∈ (loadProcessedData input KG.empty).titles) ∧
    (r.2.1 ∉ pKeys input →
      (loadProcessedData input KG.empty).viewNode r.2.1 = some ("", "", [])) := by
  refine ⟨?_, ?_, ?_⟩
  · rw [mem_titles_load]
    refine Or.inr (Or.inl ?_)
    split
    · assumption
    · exact List.mem_map.mpr ⟨(title, pd), hp, rfl⟩
  · rw [mem_titles_load]
    exact Or.inr (Or.inr ⟨(title, pd), hp, r, hr, rfl, hne⟩)
  · intro hnk
    exact viewNode_load_not_key input KG.empty r.2.1 hnk
      ⟨(title, pd), hp, r, hr, rfl, hne⟩

/-- C7 witness: the target `B` of the triple under entry `A` is absent
from the mapping and is auto-created with empty metadata. -/
theorem C7_referential_autocreation_witness :
    (("A" : String) ∈ (loadProcessedData c7Good KG.empty).titles) ∧
    ("B" ∈ (loadProcessedData c7Good KG.empty).titles) ∧
    ("B" ∉ pKeys c7Good) ∧
    ((loadProcessedData c7Good KG.empty).viewNode "B" = some ("", "", [])) :=
  ⟨(C7_referential_autocreation c7Good "A" ⟨⟨"sum", "url", ["c"], []⟩,
      [("A", "B", "RELATES_TO")]⟩ ("A", "B", "RELATES_TO")
      (by decide) (by decide) (by decide)).1,
    (C7_referential_autocreation c7Good "A" ⟨⟨"sum", "url", ["c"], []⟩,
      [("A", "B", "RELATES_TO")]⟩ ("A", "B", "RELATES_TO")
      (by decide) (by decide) (by decide)).2.1,
    by decide,
    (C7_referential_autocreation c7Good "A" ⟨⟨"sum", "url", ["c"], []⟩,
      [("A", "B", "RELATES_TO")]⟩ ("A", "B", "RELATES_TO")
      (by decide) (by decide) (by decide)).2.2 (by decide)⟩

/-- C9: counterexample to the claim as stated.  A case-insensitive match
for the path endpoint `algebra` exists among the known titles, yet the
offline shortest-path fallback returns the empty not-found result without
attempting it — while the exactly-cased call succeeds. -/
theorem C9_counterexample :
    (∃ k ∈ pKeys c9Data, pyLower k = pyLower "algebra") ∧
    offPathRun c9Data "algebra" "Calculus" 6 = ⟨[], []⟩ ∧
    offPathRun c9Data "Algebra" "Calculus" 6 ≠ ⟨[], []⟩ := by
  refine ⟨by decide, by decide, by decide⟩

/-- C9 (amended): in the offline backend the case-insensitive fallback
applies to `export_subgraph`'s root only — a non-key root is resolved
against the first case-insensitive match among the known titles before
404 — while `shortest_path` returns the empty result as soon as either
endpoint is not an exact key. -/
theorem C9_ci_fallback :
    (∀ (input : PInput) (root : String) (depth : Int) (k : String),
      root ∉ pKeys input →
      (pKeys input).find? (fun k2 => pyLower k2 == pyLower root) = some k →
      offSubgraphRoute input root depth = some (offSubgraphRun input k depth)) ∧
    (∀ (input : PInput) (root : String) (depth : Int),
      root ∉ pKeys input →
      (pKeys input).find? (fun k2 => pyLower k2 == pyLower root) = none →
      offSubgraphRoute input root depth = none) ∧
    (∀ (input : PInput) (s t : String) (maxDepth : Int),
      s ∉ pKeys input ∨ t ∉ pKeys input →
      offPathRun input s t maxDepth = ⟨[], []⟩) := by
  refine ⟨?_, ?_, ?_⟩
  · intro input root depth k hnk hfind
    rw [offSubgraphRoute, if_neg hnk, hfind]
  · intro input root depth hnk hfind
    rw [offSubgraphRoute, if_neg hnk, hfind]
  · intro input s t maxDepth h
    have hno : ¬ (s ∈ pKeys input ∧ t ∈ pKeys input) := by
      rintro ⟨h1, h2⟩
      rcases h with h | h
      · exact h h1
      · exact h h2
    rw [offPathRun, if_neg hno]

/-- C9 witness: the subgraph route resolves `algebra` to `Algebra`, a
root with no case-insensitive match yields 404, and a mis-cased path
endpoint yields the empty result. -/
theorem C9_ci_fallback_witness :
    ("algebra" ∉ pKeys c9Data ∧
      offSubgraphRoute c9Data "algebra" 2 = some (offSubgraphRun c9Data "Algebra" 2)) ∧
    ("zzz" ∉ pKeys c9Data ∧ offSubgraphRoute c9Data "zzz" 2 = none) ∧
    offPathRun c9Data "algebra" "Calculus" 7 = ⟨[], []⟩ :=
  ⟨⟨by decide, C9_ci_fallback.1 c9Data "algebra" 2 "Algebra" (by decide) (by decide)⟩,
    ⟨by decide, C9_ci_fallback.2.1 c9Data "zzz" 2 (by decide) (by decide)⟩,
    C9_ci_fallback.2.2 c9Data "algebra" "Calculus" 7 (Or.inl (by decide))⟩

end AutoKG
